import Mathlib

/-! Shallow embedding of `src/main.py`: a star-system generator (complete weighted
graph with Euclidean edge weights rounded to two decimals) and a Dijkstra-based
route calculator.  Python dicts are modelled as insertion-ordered association
lists, Python's global `random` state as explicit oracle streams, and the
`while` loops of the code as fuelled recursions (running out of fuel returns
`none`, modelling divergence; sufficiency of the fuel is proved where needed). -/

/-- Lookup in an association list, first match.  Models `d[k]` / `d.get(k)` on a
Python dict, returning `none` when the key is absent (real dicts have unique
keys, so first match agrees with the dict). -/
def dictGet {K V : Type*} [DecidableEq K] : List (K × V) → K → Option V
  | [], _ => none
  | (k', v) :: t, k => if k' = k then some v else dictGet t k

/-- Assignment `d[k] = v` on a Python dict: overwrite in place if the key is
present, else append. -/
def dictInsert {K V : Type*} [DecidableEq K] : List (K × V) → K → V → List (K × V)
  | [], k, v => [(k, v)]
  | (k', v') :: t, k, v => if k' = k then (k, v) :: t else (k', v') :: dictInsert t k v

/-- Python dataclass `Planet` (src/main.py:9-12).  The route calculator is stated
generically over a linear ordered field `α`; the generator instantiates `α := ℝ`. -/
structure Planet (α : Type) where
  name : String
  coordinates : α × α
deriving DecidableEq

/-- Python dataclass `StarSystem` (src/main.py:15-19); `distances` is the cached
distance dict keyed by ordered pairs of planet names. -/
structure StarSystem (α : Type) where
  name : String
  planets : List (Planet α)
  distances : List ((String × String) × α)
deriving DecidableEq

/-- Mutable state of a `GalaxyGenerator` instance (src/main.py:22-25): the
registered systems dict and the set of used names. -/
structure GalaxyGenerator where
  systems : List (String × StarSystem ℝ)
  used_names : List String

/-- `GalaxyGenerator.generate_unique_name` (src/main.py:27-33).  The unbounded
`while True` retry loop is fuelled; `stream idx` is the random four-character
suffix drawn at RNG position `idx` (the RNG is an oracle: an arbitrary stream of
suffixes).  Returns the name, the updated generator and the next RNG position. -/
def generate_unique_name (stream : ℕ → String) (g : GalaxyGenerator) (idx : ℕ)
    (pfx : String) : ℕ → Option (String × GalaxyGenerator × ℕ)
  | 0 => none
  | fuel + 1 =>
    let name := pfx ++ "-" ++ stream idx
    if name ∈ g.used_names then generate_unique_name stream g (idx + 1) pfx fuel
    else some (name, { g with used_names := name :: g.used_names }, idx + 1)

/-- Rounding to two decimal places, `round(x, 2)`.  Mathlib's `round` rounds
halves up while Python rounds halves to even; the two agree except at exact
ties, which only arise on a measure-zero set of coordinates. -/
noncomputable def round2 (x : ℝ) : ℝ := ((round (100 * x) : ℤ) : ℝ) / 100

/-- `GalaxyGenerator.calculate_distance` (src/main.py:35-39): Euclidean distance
between two planets, rounded to two decimals (`x ** 0.5` on a nonnegative real
is the square root). -/
noncomputable def calculate_distance (p1 p2 : Planet ℝ) : ℝ :=
  round2 (Real.sqrt ((p2.coordinates.1 - p1.coordinates.1) ^ 2 +
    (p2.coordinates.2 - p1.coordinates.2) ^ 2))

/-- One outer iteration of the distance loop (src/main.py:59-63): planet `p1` is
paired with each later planet `p2`, inserting both key orders with the same value. -/
noncomputable def insertPairs (p1 : Planet ℝ) (later : List (Planet ℝ))
    (d : List ((String × String) × ℝ)) : List ((String × String) × ℝ) :=
  later.foldl (fun dd p2 =>
    dictInsert (dictInsert dd (p1.name, p2.name) (calculate_distance p1 p2))
      (p2.name, p1.name) (calculate_distance p1 p2)) d

/-- The full double loop `for i, p1 in enumerate(planets): for j, p2 in
enumerate(planets[i+1:], i+1): ...` building the distance dict. -/
noncomputable def buildDistances : List (Planet ℝ) → List ((String × String) × ℝ) →
    List ((String × String) × ℝ)
  | [], d => d
  | p :: rest, d => buildDistances rest (insertPairs p rest d)

/-- The planet-generation loop of `generate_star_system` (src/main.py:48-56);
`coords` is the oracle stream behind `random.uniform(-100, 100)`, consumed two
values per planet starting at position `cIdx`.  `fuel` bounds each
name-allocation retry loop. -/
def genPlanets (stream : ℕ → String) (coords : ℕ → ℝ) (fuel : ℕ) :
    ℕ → GalaxyGenerator → ℕ → ℕ → Option (List (Planet ℝ) × GalaxyGenerator × ℕ × ℕ)
  | 0, g, idx, cIdx => some ([], g, idx, cIdx)
  | k + 1, g, idx, cIdx =>
    match generate_unique_name stream g idx "PLT" fuel with
    | none => none
    | some (nm, g1, idx1) =>
      match genPlanets stream coords fuel k g1 idx1 (cIdx + 2) with
      | none => none
      | some (ps, g2, idx2, cIdx2) =>
        some (⟨nm, (coords cIdx, coords (cIdx + 1))⟩ :: ps, g2, idx2, cIdx2)

/-- `GalaxyGenerator.generate_star_system` (src/main.py:41-65).  `num_planets`
is a Python `int`, possibly non-positive, in which case `range(num_planets)`
iterates zero times — hence `num_planets.toNat` iterations. -/
noncomputable def generate_star_system (stream : ℕ → String) (coords : ℕ → ℝ)
    (g : GalaxyGenerator) (idx cIdx : ℕ) (num_planets : ℤ) (fuel : ℕ) :
    Option (StarSystem ℝ × GalaxyGenerator × ℕ × ℕ) :=
  match generate_unique_name stream g idx "SYS" fuel with
  | none => none
  | some (system_name, g1, idx1) =>
    match genPlanets stream coords fuel num_planets.toNat g1 idx1 cIdx with
    | none => none
    | some (planets, g2, idx2, cIdx2) =>
      some (⟨system_name, planets, buildDistances planets []⟩, g2, idx2, cIdx2)

/-- `GalaxyGenerator.add_star_system` (src/main.py:67-69). -/
def add_star_system (g : GalaxyGenerator) (system : StarSystem ℝ) : GalaxyGenerator :=
  { g with systems := dictInsert g.systems system.name system }

/-- Module-level state behind the default argument `num_planets: int =
random.randint(3, 8)` (src/main.py:41): Python evaluates the default ONCE, when
the method definition is executed, so it is a constant of the loaded module,
drawn uniformly from the inclusive range 3..8. -/
structure ModuleDefaults where
  default_num_planets : ℤ

/-- A call `generate_star_system()` that omits the count uses the module's
construction-time default. -/
noncomputable def generate_star_system_default (md : ModuleDefaults)
    (stream : ℕ → String) (coords : ℕ → ℝ) (g : GalaxyGenerator) (idx cIdx fuel : ℕ) :
    Option (StarSystem ℝ × GalaxyGenerator × ℕ × ℕ) :=
  generate_star_system stream coords g idx cIdx md.default_num_planets fuel

/-- The only error a run of `find_shortest_path` can raise: a Python `KeyError`
from a missing dict key during path reconstruction. -/
inductive PyErr where
  | keyError
deriving DecidableEq

/-- Loop state of `RouteCalculator.find_shortest_path` (src/main.py:99-104): the
tentative-distance dict (as a total function: the only keys the code ever reads
are planet names plus — on the success path — `end_planet`, on which it agrees
with the Python dict), the predecessor dict (partial: outer `none` models a
missing key, `some none` a key mapped to Python `None`), the priority queue as a
plain list (a heap is observable only through push and pop-minimum), and the
visited set, in visit order with the newest first. -/
structure DState (α : Type) where
  dist : String → WithTop α
  prev : String → Option (Option String)
  pq : List (α × String)
  visited : List String

/-- Python tuple comparison `(d1, n1) < (d2, n2)`: lexicographic. -/
def pairLt {α : Type} [LinearOrder α] (x y : α × String) : Prop :=
  x.1 < y.1 ∨ (x.1 = y.1 ∧ x.2 < y.2)

instance {α : Type} [LinearOrder α] (x y : α × String) : Decidable (pairLt x y) :=
  inferInstanceAs (Decidable (_ ∨ _))

/-- The least entry of the queue under Python's tuple order (what
`heapq.heappop` returns); `none` on the empty queue. -/
def findMin {α : Type} [LinearOrder α] : List (α × String) → Option (α × String)
  | [] => none
  | x :: t => some (t.foldl (fun m y => if pairLt y m then y else m) x)

/-- `heapq.heappop`: remove and return a least entry. -/
def popMin {α : Type} [LinearOrder α] (l : List (α × String)) :
    Option ((α × String) × List (α × String)) :=
  (findMin l).map fun m => (m, l.erase m)

/-- One iteration of the inner `for planet in self.system.planets` relaxation
loop (src/main.py:118-131). -/
def relaxStep {α : Type} [LinearOrderedAddCommMonoid α] (sys : StarSystem α)
    (current_planet : String) (current_distance : α) (st : DState α)
    (planet : Planet α) : DState α :=
  if planet.name = current_planet then st
  else
    match dictGet sys.distances (current_planet, planet.name) with
    | none => st
    | some distance =>
      let new_distance := current_distance + distance
      if (new_distance : WithTop α) < st.dist planet.name then
        { st with
          dist := Function.update st.dist planet.name ↑new_distance,
          prev := Function.update st.prev planet.name (some (some current_planet)),
          pq := st.pq ++ [(new_distance, planet.name)] }
      else st

/-- The whole relaxation loop over the system's planets. -/
def relaxAll {α : Type} [LinearOrderedAddCommMonoid α] (sys : StarSystem α)
    (current_planet : String) (current_distance : α) (st : DState α) : DState α :=
  sys.planets.foldl (relaxStep sys current_planet current_distance) st

/-- The main `while pq:` loop (src/main.py:106-131), fuelled.  Each iteration
pops the minimum; visited entries are skipped, popping `end_planet` breaks, any
other fresh node is marked visited and relaxed. -/
def dijkstraLoop {α : Type} [LinearOrderedAddCommMonoid α] (sys : StarSystem α)
    (end_planet : String) : ℕ → DState α → Option (DState α)
  | 0, _ => none
  | fuel + 1, st =>
    match popMin st.pq with
    | none => some st
    | some ((current_distance, current_planet), rest) =>
      if current_planet ∈ st.visited then
        dijkstraLoop sys end_planet fuel { st with pq := rest }
      else
        let st1 := { st with pq := rest, visited := current_planet :: st.visited }
        if current_planet = end_planet then some st1
        else dijkstraLoop sys end_planet fuel
          (relaxAll sys current_planet current_distance st1)

/-- The path-reconstruction loop `while current is not None` (src/main.py:134-138),
fuelled (an adversarial predecessor map can cycle, on which Python diverges).
A lookup of a missing key raises `KeyError`. -/
def walk (prev : String → Option (Option String)) :
    Option String → ℕ → List String → Option (Except PyErr (List String))
  | none, _, path => some (.ok path)
  | some _, 0, _ => none
  | some current, fuel + 1, path =>
    match prev current with
    | none => some (.error .keyError)
    | some nxt => walk prev nxt fuel (path ++ [current])

/-- `RouteCalculator.find_shortest_path` (src/main.py:94-140).  The result is
`none` when a fuelled loop ran out of fuel (sufficiency of `fuel` for the main
loop is proved below; the reconstruction fuel `names.length + 1` is exhausted
exactly when the Python loop diverges on a predecessor cycle), otherwise either
the raised `KeyError` or the returned `(path, total distance)` pair. -/
def find_shortest_path {α : Type} [LinearOrderedAddCommMonoid α] (sys : StarSystem α)
    (start_planet end_planet : String) (fuel : ℕ) :
    Option (Except PyErr (List String × WithTop α)) :=
  let names := sys.planets.map Planet.name
  let st0 : DState α :=
    { dist := Function.update (fun _ => (⊤ : WithTop α)) start_planet 0,
      prev := fun s => if s ∈ names then some none else none,
      pq := [(0, start_planet)],
      visited := [] }
  match dijkstraLoop sys end_planet fuel st0 with
  | none => none
  | some st =>
    match walk st.prev (some end_planet) (names.length + 1) [] with
    | none => none
    | some (.error e) => some (.error e)
    | some (.ok path) => some (.ok (path.reverse, st.dist end_planet))

/-- Total weight of a node sequence read off the distance dict: `some 0` for a
single node, the sum of the consecutive edge weights when they all exist, and
`none` for the empty sequence or a missing edge. -/
def pathCost {α : Type} [LinearOrderedAddCommMonoid α] (sys : StarSystem α) :
    List String → Option α
  | [] => none
  | [_] => some 0
  | a :: b :: t =>
    match dictGet sys.distances (a, b), pathCost sys (b :: t) with
    | some w, some c => some (w + c)
    | _, _ => none

deriving instance DecidableEq for Except

/-- Contract of one allocator call: on success the returned name was fresh, it
is recorded in the used-name set, and the systems dict is untouched. -/
theorem generate_unique_name_spec (stream : ℕ → String) (pfx : String) :
    ∀ (fuel : ℕ) (g : GalaxyGenerator) (idx : ℕ) (nm : String) (g' : GalaxyGenerator)
      (idx' : ℕ), generate_unique_name stream g idx pfx fuel = some (nm, g', idx') →
      nm ∉ g.used_names ∧ g'.used_names = nm :: g.used_names ∧ g'.systems = g.systems := by
  intro fuel
  induction fuel with
  | zero => intro g idx nm g' idx' h; simp [generate_unique_name] at h
  | succ fuel ih =>
    intro g idx nm g' idx' h
    rw [generate_unique_name] at h
    by_cases hc : (pfx ++ "-" ++ stream idx) ∈ g.used_names
    · rw [if_pos hc] at h
      exact ih g (idx + 1) nm g' idx' h
    · rw [if_neg hc] at h
      simp only [Option.some.injEq, Prod.mk.injEq] at h
      obtain ⟨rfl, rfl, rfl⟩ := h
      exact ⟨hc, rfl, rfl⟩

/-- Contract of the planet-generation loop: it produces exactly `k` planets with
pairwise-distinct names that were all fresh at entry, records exactly those
names, and leaves the systems dict untouched. -/
theorem genPlanets_spec (stream : ℕ → String) (coords : ℕ → ℝ) (fuel : ℕ) :
    ∀ (k : ℕ) (g : GalaxyGenerator) (idx cIdx : ℕ)
      (out : List (Planet ℝ) × GalaxyGenerator × ℕ × ℕ),
      genPlanets stream coords fuel k g idx cIdx = some out →
      out.1.length = k ∧
      out.2.1.used_names = (out.1.map Planet.name).reverse ++ g.used_names ∧
      out.2.1.systems = g.systems ∧
      (out.1.map Planet.name).Nodup ∧
      ∀ nm ∈ out.1.map Planet.name, nm ∉ g.used_names := by
  intro k
  induction k with
  | zero =>
    intro g idx cIdx out h
    simp only [genPlanets, Option.some.injEq] at h
    subst h
    simp
  | succ k ih =>
    intro g idx cIdx out h
    rw [genPlanets] at h
    cases hn : generate_unique_name stream g idx "PLT" fuel with
    | none => rw [hn] at h; exact absurd h (by simp)
    | some r =>
      obtain ⟨nm, g1, idx1⟩ := r
      rw [hn] at h
      dsimp only at h
      obtain ⟨hfresh, hused1, hsys1⟩ := generate_unique_name_spec stream "PLT" fuel g idx
        nm g1 idx1 hn
      cases hr : genPlanets stream coords fuel k g1 idx1 (cIdx + 2) with
      | none => rw [hr] at h; exact absurd h (by simp)
      | some out1 =>
        rw [hr] at h
        dsimp only at h
        simp only [Option.some.injEq] at h
        obtain ⟨ps1, g2, idx2, cIdx2⟩ := out1
        obtain ⟨hlen, hused2, hsys2, hnd, hfr⟩ := ih g1 idx1 (cIdx + 2) _ hr
        subst h
        refine ⟨by simpa using hlen, ?_, by rw [hsys2, hsys1], ?_, ?_⟩
        · simp only [List.map_cons, List.reverse_cons, List.append_assoc, List.singleton_append]
          rw [hused2, hused1]
        · refine List.nodup_cons.mpr ⟨fun hmem => ?_, hnd⟩
          have := hfr nm hmem
          rw [hused1] at this
          exact this (List.mem_cons_self nm g.used_names)
        · intro x hx
          simp only [List.map_cons, List.mem_cons] at hx
          rcases hx with rfl | hx'
          · exact hfresh
          · intro hxg
            exact hfr x hx' (hused1 ▸ List.mem_cons_of_mem nm hxg)

/-- Combined contract of `generate_star_system`: on success, the planet count is
`num_planets.toNat`, planet names are pairwise distinct, the systems dict is
untouched, and the distance dict is the one built by the double loop. -/
theorem generate_star_system_spec (stream : ℕ → String) (coords : ℕ → ℝ)
    (g : GalaxyGenerator) (idx cIdx : ℕ) (np : ℤ) (fuel : ℕ)
    (out : StarSystem ℝ × GalaxyGenerator × ℕ × ℕ)
    (h : generate_star_system stream coords g idx cIdx np fuel = some out) :
    out.1.planets.length = np.toNat ∧
    (out.1.planets.map Planet.name).Nodup ∧
    out.2.1.systems = g.systems ∧
    out.1.distances = buildDistances out.1.planets [] := by
  rw [generate_star_system] at h
  cases hn : generate_unique_name stream g idx "SYS" fuel with
  | none => rw [hn] at h; exact absurd h (by simp)
  | some r =>
    obtain ⟨snm, g1, idx1⟩ := r
    rw [hn] at h
    dsimp only at h
    obtain ⟨-, -, hsys1⟩ := generate_unique_name_spec stream "SYS" fuel g idx snm g1 idx1 hn
    cases hp : genPlanets stream coords fuel np.toNat g1 idx1 cIdx with
    | none => rw [hp] at h; exact absurd h (by simp)
    | some out1 =>
      obtain ⟨ps, g2, idx2, cIdx2⟩ := out1
      rw [hp] at h
      dsimp only at h
      simp only [Option.some.injEq] at h
      obtain ⟨hlen, -, hsys2, hnd, -⟩ := genPlanets_spec stream coords fuel np.toNat g1
        idx1 cIdx _ hp
      subst h
      exact ⟨hlen, hnd, by rw [hsys2, hsys1], rfl⟩

/-- A sequence of allocator calls on one generator instance: each request is a
prefix/fuel pair, and the whole run is `none` when any call exhausts its fuel
(i.e. the Python loop would still be spinning). -/
def runAllocs (stream : ℕ → String) : List (String × ℕ) → GalaxyGenerator → ℕ →
    Option (List String × GalaxyGenerator × ℕ)
  | [], g, idx => some ([], g, idx)
  | (pfx, fuel) :: reqs, g, idx =>
    match generate_unique_name stream g idx pfx fuel with
    | none => none
    | some (nm, g1, idx1) =>
      match runAllocs stream reqs g1 idx1 with
      | none => none
      | some (nms, g2, idx2) => some (nm :: nms, g2, idx2)

/-- Contract of a run of allocator calls: the returned names are fresh and are
exactly what gets recorded. -/
theorem runAllocs_spec (stream : ℕ → String) :
    ∀ (reqs : List (String × ℕ)) (g : GalaxyGenerator) (idx : ℕ)
      (out : List String × GalaxyGenerator × ℕ),
      runAllocs stream reqs g idx = some out →
      out.2.1.used_names = out.1.reverse ++ g.used_names ∧
      out.1.Nodup ∧
      ∀ nm ∈ out.1, nm ∉ g.used_names := by
  intro reqs
  induction reqs with
  | nil =>
    intro g idx out h
    simp only [runAllocs, Option.some.injEq] at h
    subst h
    simp
  | cons req reqs ih =>
    obtain ⟨pfx, fuel⟩ := req
    intro g idx out h
    rw [runAllocs] at h
    cases hn : generate_unique_name stream g idx pfx fuel with
    | none => rw [hn] at h; exact absurd h (by simp)
    | some r =>
      obtain ⟨nm, g1, idx1⟩ := r
      rw [hn] at h
      dsimp only at h
      obtain ⟨hfresh, hused1, -⟩ := generate_unique_name_spec stream pfx fuel g idx
        nm g1 idx1 hn
      cases hr : runAllocs stream reqs g1 idx1 with
      | none => rw [hr] at h; exact absurd h (by simp)
      | some out1 =>
        obtain ⟨nms, g2, idx2⟩ := out1
        rw [hr] at h
        dsimp only at h
        simp only [Option.some.injEq] at h
        obtain ⟨hused2, hnd, hfr⟩ := ih g1 idx1 _ hr
        subst h
        refine ⟨?_, ?_, ?_⟩
        · simp only [List.reverse_cons, List.append_assoc, List.singleton_append]
          rw [hused2, hused1]
        · refine List.nodup_cons.mpr ⟨fun hmem => ?_, hnd⟩
          exact hfr nm hmem (hused1 ▸ List.mem_cons_self nm g.used_names)
        · intro x hx
          rcases List.mem_cons.mp hx with rfl | hx'
          · exact hfresh
          · exact fun hxg => hfr x hx' (hused1 ▸ List.mem_cons_of_mem nm hxg)

/-- Looking up the key just written by a dict assignment returns the written value. -/
theorem dictGet_dictInsert_self {K V : Type*} [DecidableEq K] :
    ∀ (l : List (K × V)) (k : K) (v : V), dictGet (dictInsert l k v) k = some v
  | [], k, v => by simp [dictInsert, dictGet]
  | (k', v') :: t, k, v => by
    by_cases h : k' = k
    · simp [dictInsert, dictGet, h]
    · simp [dictInsert, dictGet, h, dictGet_dictInsert_self t k v]

/-- A dict assignment leaves lookups of every other key unchanged. -/
theorem dictGet_dictInsert_ne {K V : Type*} [DecidableEq K] (k : K) (v : V) (k'' : K)
    (hne : k'' ≠ k) : ∀ l : List (K × V), dictGet (dictInsert l k v) k'' = dictGet l k'' := by
  intro l
  induction l with
  | nil => simp [dictInsert, dictGet, Ne.symm hne]
  | cons kv t ih =>
    obtain ⟨k', v'⟩ := kv
    by_cases h : k' = k
    · subst h
      simp [dictInsert, dictGet, Ne.symm hne]
    · simp [dictInsert, if_neg h, dictGet, ih]

/-- C7: for every sequence of calls to the name allocator on one generator
instance, with any mix of prefixes (and any per-call fuel), the names returned
by the completed run are pairwise distinct. -/
theorem c7_allocator_names_pairwise_distinct (stream : ℕ → String)
    (reqs : List (String × ℕ)) (g : GalaxyGenerator) (idx : ℕ)
    (out : List String × GalaxyGenerator × ℕ)
    (h : runAllocs stream reqs g idx = some out) : out.1.Nodup :=
  (runAllocs_spec stream reqs g idx out h).2.1

theorem c7_witness :
    runAllocs (fun n => toString n) [("PLT", 1), ("SYS", 1), ("PLT", 1)] ⟨[], []⟩ 0 =
      some (["PLT-0", "SYS-1", "PLT-2"], ⟨[], ["PLT-2", "SYS-1", "PLT-0"]⟩, 3) ∧
    (["PLT-0", "SYS-1", "PLT-2"] : List String).Nodup :=
  ⟨rfl, c7_allocator_names_pairwise_distinct (fun n => toString n)
    [("PLT", 1), ("SYS", 1), ("PLT", 1)] ⟨[], []⟩ 0
    (["PLT-0", "SYS-1", "PLT-2"], ⟨[], ["PLT-2", "SYS-1", "PLT-0"]⟩, 3) rfl⟩

/-- C10: `generate_star_system` never modifies the generator's systems dict;
the dict is changed only by `add_star_system`, which sets the entry for the
given system's name and leaves every other entry unchanged. -/
theorem c10_systems_frame :
    (∀ (stream : ℕ → String) (coords : ℕ → ℝ) (g : GalaxyGenerator) (idx cIdx : ℕ)
        (np : ℤ) (fuel : ℕ) (out : StarSystem ℝ × GalaxyGenerator × ℕ × ℕ),
        generate_star_system stream coords g idx cIdx np fuel = some out →
        out.2.1.systems = g.systems) ∧
    (∀ (g : GalaxyGenerator) (sys : StarSystem ℝ),
        dictGet (add_star_system g sys).systems sys.name = some sys ∧
        ∀ n, n ≠ sys.name →
          dictGet (add_star_system g sys).systems n = dictGet g.systems n) :=
  ⟨fun stream coords g idx cIdx np fuel out h =>
      (generate_star_system_spec stream coords g idx cIdx np fuel out h).2.2.1,
   fun g sys =>
      ⟨dictGet_dictInsert_self g.systems sys.name sys,
       fun n hn => dictGet_dictInsert_ne sys.name sys n hn g.systems⟩⟩

theorem c10_witness :
    generate_star_system (fun n => toString n) (fun _ => 0) ⟨[], []⟩ 0 0 (-1) 1 =
      some (⟨"SYS-0", [], []⟩, ⟨[], ["SYS-0"]⟩, 1, 0) ∧
    (⟨[], ["SYS-0"]⟩ : GalaxyGenerator).systems = (⟨[], []⟩ : GalaxyGenerator).systems ∧
    dictGet (add_star_system ⟨[], []⟩ ⟨"X", [], []⟩).systems "X" =
      some (⟨"X", [], []⟩ : StarSystem ℝ) := by
  have h : generate_star_system (fun n => toString n) (fun _ => 0) ⟨[], []⟩ 0 0 (-1) 1 =
      some (⟨"SYS-0", [], []⟩, ⟨[], ["SYS-0"]⟩, 1, 0) := rfl
  exact ⟨h,
    c10_systems_frame.1 (fun n => toString n) (fun _ => 0) ⟨[], []⟩ 0 0 (-1) 1
      (⟨"SYS-0", [], []⟩, ⟨[], ["SYS-0"]⟩, 1, 0) h,
    (c10_systems_frame.2 ⟨[], []⟩ ⟨"X", [], []⟩).1⟩

/-- C2 counterexample: `generate_star_system` called with planet count `-3`
returns a System with zero planets and no error — the claimed precondition
violation is never signalled, refuting the claim at this input. -/
theorem c2_counterexample :
    generate_star_system (fun n => toString n) (fun _ => 0) ⟨[], []⟩ 0 0 (-3) 1 =
      some (⟨"SYS-0", [], []⟩, ⟨[], ["SYS-0"]⟩, 1, 0) := rfl

/-- C2 amended: `generate_star_system` performs no validation of the planet
count; for every zero or negative count the generation loop body runs zero
times (`range` over a non-positive bound is empty) and it returns a System
with an empty planet list and an empty distance dict. -/
theorem c2_amended_no_validation (stream : ℕ → String) (coords : ℕ → ℝ)
    (g : GalaxyGenerator) (idx cIdx : ℕ) (np : ℤ) (fuel : ℕ)
    (out : StarSystem ℝ × GalaxyGenerator × ℕ × ℕ)
    (hnp : np ≤ 0)
    (h : generate_star_system stream coords g idx cIdx np fuel = some out) :
    out.1.planets = [] ∧ out.1.distances = [] := by
  obtain ⟨hlen, -, -, hdist⟩ :=
    generate_star_system_spec stream coords g idx cIdx np fuel out h
  have h0 : np.toNat = 0 := Int.toNat_of_nonpos hnp
  have hpl : out.1.planets = [] := List.length_eq_zero.mp (by rw [hlen, h0])
  exact ⟨hpl, by rw [hdist, hpl]; rfl⟩

theorem c2_amended_witness :
    (-3 : ℤ) ≤ 0 ∧
    (⟨"SYS-0", [], []⟩ : StarSystem ℝ).planets = [] ∧
    (⟨"SYS-0", [], []⟩ : StarSystem ℝ).distances = [] :=
by
  have h : generate_star_system (fun n => toString n) (fun _ => 0) ⟨[], []⟩ 0 0 (-3) 1 =
      some (⟨"SYS-0", [], []⟩, ⟨[], ["SYS-0"]⟩, 1, 0) := rfl
  exact ⟨by decide,
    c2_amended_no_validation (fun n => toString n) (fun _ => 0) ⟨[], []⟩ 0 0 (-3) 1
      (⟨"SYS-0", [], []⟩, ⟨[], ["SYS-0"]⟩, 1, 0) (by decide) h⟩

/-- C8: the omitted-count default is a module constant evaluated once at
definition time; for a fixed module state whose sampled default lies in 3..8
there is a single `k` in 3..8 such that every successful call omitting the
count generates exactly `k` planets — never re-rolled per call. -/
theorem c8_default_count_fixed (md : ModuleDefaults)
    (h3 : 3 ≤ md.default_num_planets) (h8 : md.default_num_planets ≤ 8) :
    ∃ k : ℕ, 3 ≤ k ∧ k ≤ 8 ∧
      ∀ (stream : ℕ → String) (coords : ℕ → ℝ) (g : GalaxyGenerator)
        (idx cIdx fuel : ℕ) (out : StarSystem ℝ × GalaxyGenerator × ℕ × ℕ),
        generate_star_system_default md stream coords g idx cIdx fuel = some out →
        out.1.planets.length = k := by
  refine ⟨md.default_num_planets.toNat, by omega, by omega, ?_⟩
  intro stream coords g idx cIdx fuel out h
  exact (generate_star_system_spec stream coords g idx cIdx md.default_num_planets
    fuel out h).1

theorem c8_witness :
    (3 : ℤ) ≤ (⟨5⟩ : ModuleDefaults).default_num_planets ∧
    (⟨5⟩ : ModuleDefaults).default_num_planets ≤ 8 ∧
    ∃ k : ℕ, 3 ≤ k ∧ k ≤ 8 ∧
      ∀ (stream : ℕ → String) (coords : ℕ → ℝ) (g : GalaxyGenerator)
        (idx cIdx fuel : ℕ) (out : StarSystem ℝ × GalaxyGenerator × ℕ × ℕ),
        generate_star_system_default ⟨5⟩ stream coords g idx cIdx fuel = some out →
        out.1.planets.length = k :=
  ⟨by decide, by decide, c8_default_count_fixed ⟨5⟩ (by decide) (by decide)⟩

/-- Lookup distributes over append: the first list wins. -/
theorem dictGet_append {K V : Type*} [DecidableEq K] :
    ∀ (l1 l2 : List (K × V)) (k : K),
      dictGet (l1 ++ l2) k = match dictGet l1 k with
        | some v => some v
        | none => dictGet l2 k
  | [], l2, k => by simp [dictGet]
  | (k', v') :: t, l2, k => by
    by_cases h : k' = k
    · simp [dictGet, h]
    · simp [dictGet, h, dictGet_append t l2 k]

/-- Lookup misses exactly when no entry has the key. -/
theorem dictGet_eq_none_iff {K V : Type*} [DecidableEq K] :
    ∀ (l : List (K × V)) (k : K), dictGet l k = none ↔ ∀ kv ∈ l, kv.1 ≠ k
  | [], k => by simp [dictGet]
  | (k', v') :: t, k => by
    by_cases h : k' = k
    · simp [dictGet, h]
    · simp [dictGet, h, dictGet_eq_none_iff t k]

/-- Writing a key that is not yet present appends the new entry. -/
theorem dictInsert_eq_append {K V : Type*} [DecidableEq K] :
    ∀ (l : List (K × V)) (k : K) (v : V), (∀ kv ∈ l, kv.1 ≠ k) →
      dictInsert l k v = l ++ [(k, v)]
  | [], k, v, _ => rfl
  | (k', v') :: t, k, v, h => by
    have hk : k' ≠ k := h (k', v') (List.mem_cons_self _ _)
    simp only [dictInsert, if_neg hk, List.cons_append, List.cons.injEq, true_and]
    exact dictInsert_eq_append t k v fun kv hkv => h kv (List.mem_cons_of_mem _ hkv)

/-- Two distinct members of a list occur in one order or the other. -/
theorem mem_pair_sublist {β : Type*} {a b : β} (hab : a ≠ b) :
    ∀ {l : List β}, a ∈ l → b ∈ l → [a, b].Sublist l ∨ [b, a].Sublist l := by
  intro l
  induction l with
  | nil => intro ha; cases ha
  | cons x t ih =>
    intro ha hb
    rcases List.mem_cons.mp ha with rfl | ha'
    · left
      have hb' : b ∈ t := by
        rcases List.mem_cons.mp hb with rfl | h
        · exact absurd rfl hab
        · exact h
      exact (List.singleton_sublist.mpr hb').cons₂ a
    · rcases List.mem_cons.mp hb with rfl | hb'
      · right
        exact (List.singleton_sublist.mpr ha').cons₂ b
      · rcases ih ha' hb' with h | h
        · exact Or.inl (h.cons x)
        · exact Or.inr (h.cons x)

/-- Rounding to two decimals preserves nonnegativity. -/
theorem round2_nonneg {x : ℝ} (hx : 0 ≤ x) : 0 ≤ round2 x := by
  unfold round2
  have h1 : (0 : ℤ) ≤ round (100 * x) := by
    rw [round_eq]
    exact Int.floor_nonneg.mpr (by linarith)
  have h2 : (0 : ℝ) ≤ ((round (100 * x) : ℤ) : ℝ) := Int.cast_nonneg.mpr h1
  linarith

/-- Cached distances are nonnegative (square root of a sum of squares). -/
theorem calculate_distance_nonneg (p q : Planet ℝ) : 0 ≤ calculate_distance p q :=
  round2_nonneg (Real.sqrt_nonneg _)

/-- The Euclidean formula is symmetric in the two planets. -/
theorem calculate_distance_comm (p q : Planet ℝ) :
    calculate_distance p q = calculate_distance q p := by
  have h : (q.coordinates.1 - p.coordinates.1) ^ 2 + (q.coordinates.2 - p.coordinates.2) ^ 2
      = (p.coordinates.1 - q.coordinates.1) ^ 2 + (p.coordinates.2 - q.coordinates.2) ^ 2 := by
    ring
  rw [calculate_distance, calculate_distance, h]

/-- The two entries one inner iteration of the distance loop appends. -/
noncomputable def pairsFlat (p : Planet ℝ) (later : List (Planet ℝ)) :
    List ((String × String) × ℝ) :=
  later.flatMap fun q =>
    [((p.name, q.name), calculate_distance p q), ((q.name, p.name), calculate_distance p q)]

/-- All entries the double loop appends, in insertion order. -/
noncomputable def allPairsFlat : List (Planet ℝ) → List ((String × String) × ℝ)
  | [] => []
  | p :: rest => pairsFlat p rest ++ allPairsFlat rest

/-- Under the generator's freshness discipline (distinct planet names, no
pre-existing keys among the names being processed), each outer iteration of the
distance loop appends exactly its two entries per later planet. -/
theorem insertPairs_eq_append (p : Planet ℝ) :
    ∀ later : List (Planet ℝ), (later.map Planet.name).Nodup →
      p.name ∉ later.map Planet.name →
      ∀ d : List ((String × String) × ℝ),
      (∀ kv ∈ d, kv.1.1 = p.name → kv.1.2 ∉ later.map Planet.name) →
      (∀ kv ∈ d, kv.1.2 = p.name → kv.1.1 ∉ later.map Planet.name) →
      insertPairs p later d = d ++ pairsFlat p later := by
  intro later
  induction later with
  | nil => intro _ _ d _ _; simp [insertPairs, pairsFlat]
  | cons q qs ih =>
    intro hnd hp d hd1 hd2
    have hpq : p.name ≠ q.name := fun h => hp (by simp [h])
    have hqqs : q.name ∉ qs.map Planet.name := by
      simp only [List.map_cons, List.nodup_cons] at hnd
      exact hnd.1
    have hnd' : (qs.map Planet.name).Nodup := by
      simp only [List.map_cons, List.nodup_cons] at hnd
      exact hnd.2
    have hp' : p.name ∉ qs.map Planet.name := by
      simp only [List.map_cons, List.mem_cons] at hp
      exact fun h => hp (Or.inr h)
    have fresh1 : ∀ kv ∈ d, kv.1 ≠ (p.name, q.name) := by
      intro kv hkv heq
      exact hd1 kv hkv (by rw [heq]) (by rw [heq]; simp)
    have fresh2 : ∀ kv ∈ d ++ [((p.name, q.name), calculate_distance p q)],
        kv.1 ≠ (q.name, p.name) := by
      intro kv hkv heq
      rcases List.mem_append.mp hkv with hkv' | hkv'
      · exact hd2 kv hkv' (by rw [heq]) (by rw [heq]; simp)
      · simp only [List.mem_singleton] at hkv'
        rw [hkv'] at heq
        simp only [Prod.mk.injEq] at heq
        exact hpq heq.1
    have step : insertPairs p (q :: qs) d = insertPairs p qs
        (d ++ [((p.name, q.name), calculate_distance p q),
               ((q.name, p.name), calculate_distance p q)]) := by
      simp only [insertPairs, List.foldl_cons]
      congr 1
      rw [dictInsert_eq_append d _ _ fresh1, dictInsert_eq_append _ _ _ fresh2,
        List.append_assoc]
      rfl
    have hd1' : ∀ kv ∈ d ++ [((p.name, q.name), calculate_distance p q),
        ((q.name, p.name), calculate_distance p q)],
        kv.1.1 = p.name → kv.1.2 ∉ qs.map Planet.name := by
      intro kv hkv h1
      rcases List.mem_append.mp hkv with hkv' | hkv'
      · intro hmem
        exact hd1 kv hkv' h1 (by simp only [List.map_cons, List.mem_cons]; exact Or.inr hmem)
      · rcases List.mem_cons.mp hkv' with rfl | hkv''
        · exact hqqs
        · simp only [List.mem_singleton] at hkv''
          rw [hkv''] at h1
          exact absurd h1.symm hpq
    have hd2' : ∀ kv ∈ d ++ [((p.name, q.name), calculate_distance p q),
        ((q.name, p.name), calculate_distance p q)],
        kv.1.2 = p.name → kv.1.1 ∉ qs.map Planet.name := by
      intro kv hkv h1
      rcases List.mem_append.mp hkv with hkv' | hkv'
      · intro hmem
        exact hd2 kv hkv' h1 (by simp only [List.map_cons, List.mem_cons]; exact Or.inr hmem)
      · rcases List.mem_cons.mp hkv' with rfl | hkv''
        · exact absurd h1.symm hpq
        · simp only [List.mem_singleton] at hkv''
          rw [hkv'']
          exact hqqs
    rw [step, ih hnd' hp' _ hd1' hd2']
    simp [pairsFlat, List.append_assoc]

/-- Membership in the two-entry blocks of one outer iteration. -/
theorem mem_pairsFlat {p : Planet ℝ} {later : List (Planet ℝ)}
    {kv : (String × String) × ℝ} :
    kv ∈ pairsFlat p later ↔ ∃ q ∈ later,
      kv = ((p.name, q.name), calculate_distance p q) ∨
      kv = ((q.name, p.name), calculate_distance p q) := by
  simp [pairsFlat]

/-- Both orders of a pair of planets, in source order, appear in the flat list. -/
theorem sublist_mem_allPairsFlat :
    ∀ {ps : List (Planet ℝ)} {p q : Planet ℝ}, [p, q].Sublist ps →
      ((p.name, q.name), calculate_distance p q) ∈ allPairsFlat ps ∧
      ((q.name, p.name), calculate_distance p q) ∈ allPairsFlat ps := by
  intro ps
  induction ps with
  | nil => intro p q h; exact absurd (h.length_le) (by simp)
  | cons x rest ih =>
    intro p q h
    simp only [allPairsFlat, List.mem_append]
    cases h with
    | cons _ h' => exact ⟨Or.inr (ih h').1, Or.inr (ih h').2⟩
    | cons₂ _ h' =>
      have hq : q ∈ rest := List.singleton_sublist.mp h'
      exact ⟨Or.inl (mem_pairsFlat.mpr ⟨q, hq, Or.inl rfl⟩),
             Or.inl (mem_pairsFlat.mpr ⟨q, hq, Or.inr rfl⟩)⟩

/-- Full membership characterization of the flat pair list. -/
theorem mem_allPairsFlat :
    ∀ {ps : List (Planet ℝ)} {kv : (String × String) × ℝ},
      kv ∈ allPairsFlat ps ↔ ∃ p q, [p, q].Sublist ps ∧
        (kv = ((p.name, q.name), calculate_distance p q) ∨
         kv = ((q.name, p.name), calculate_distance p q)) := by
  intro ps
  induction ps with
  | nil =>
    intro kv
    simp only [allPairsFlat, List.not_mem_nil, false_iff, not_exists]
    intro p q h
    exact absurd h.1.length_le (by simp)
  | cons x rest ih =>
    intro kv
    simp only [allPairsFlat, List.mem_append]
    constructor
    · intro h
      rcases h with h | h
      · obtain ⟨q, hq, hkv⟩ := mem_pairsFlat.mp h
        exact ⟨x, q, (List.singleton_sublist.mpr hq).cons₂ x, hkv⟩
      · obtain ⟨p, q, hs, hkv⟩ := ih.mp h
        exact ⟨p, q, hs.cons x, hkv⟩
    · rintro ⟨p, q, hs, hkv⟩
      cases hs with
      | cons _ h' => exact Or.inr (ih.mpr ⟨p, q, h', hkv⟩)
      | cons₂ _ h' =>
        have hq : q ∈ rest := List.singleton_sublist.mp h'
        exact Or.inl (mem_pairsFlat.mpr ⟨q, hq, hkv⟩)

/-- Each outer iteration contributes two entries per later planet. -/
theorem pairsFlat_length (p : Planet ℝ) :
    ∀ later : List (Planet ℝ), (pairsFlat p later).length = 2 * later.length := by
  intro later
  induction later with
  | nil => rfl
  | cons q qs ih =>
    unfold pairsFlat at ih ⊢
    rw [List.flatMap_cons]
    simp only [List.length_append, List.length_cons, List.length_nil, ih]
    omega

/-- The flat pair list of `n` planets has exactly `n * (n - 1)` entries. -/
theorem allPairsFlat_length :
    ∀ ps : List (Planet ℝ), (allPairsFlat ps).length = ps.length * (ps.length - 1) := by
  intro ps
  induction ps with
  | nil => rfl
  | cons p rest ih =>
    simp only [allPairsFlat, List.length_append, pairsFlat_length, ih, List.length_cons]
    cases hr : rest.length with
    | zero => simp
    | succ s => simp only [Nat.succ_sub_one]; ring

/-- With pairwise-distinct planet names (and an accumulator with no keys among
those names), the double loop appends exactly the flat pair list. -/
theorem buildDistances_eq :
    ∀ ps : List (Planet ℝ), (ps.map Planet.name).Nodup →
      ∀ d : List ((String × String) × ℝ),
      (∀ kv ∈ d, ¬(kv.1.1 ∈ ps.map Planet.name ∧ kv.1.2 ∈ ps.map Planet.name)) →
      buildDistances ps d = d ++ allPairsFlat ps := by
  intro ps
  induction ps with
  | nil => intro _ d _; simp [buildDistances, allPairsFlat]
  | cons p rest ih =>
    intro hnd d hdisj
    have hprest : p.name ∉ rest.map Planet.name := by
      simp only [List.map_cons, List.nodup_cons] at hnd
      exact hnd.1
    have hnd' : (rest.map Planet.name).Nodup := by
      simp only [List.map_cons, List.nodup_cons] at hnd
      exact hnd.2
    have hd1 : ∀ kv ∈ d, kv.1.1 = p.name → kv.1.2 ∉ rest.map Planet.name := by
      intro kv hkv h1 h2
      refine hdisj kv hkv ⟨?_, ?_⟩
      · rw [h1]; simp
      · simp only [List.map_cons, List.mem_cons]
        exact Or.inr h2
    have hd2 : ∀ kv ∈ d, kv.1.2 = p.name → kv.1.1 ∉ rest.map Planet.name := by
      intro kv hkv h1 h2
      refine hdisj kv hkv ⟨?_, ?_⟩
      · simp only [List.map_cons, List.mem_cons]
        exact Or.inr h2
      · rw [h1]; simp
    have hdisj' : ∀ kv ∈ d ++ pairsFlat p rest,
        ¬(kv.1.1 ∈ rest.map Planet.name ∧ kv.1.2 ∈ rest.map Planet.name) := by
      rintro kv hkv ⟨ha, hb⟩
      rcases List.mem_append.mp hkv with hkv' | hkv'
      · refine hdisj kv hkv' ⟨?_, ?_⟩
        · simp only [List.map_cons, List.mem_cons]
          exact Or.inr ha
        · simp only [List.map_cons, List.mem_cons]
          exact Or.inr hb
      · obtain ⟨q, hq, hkv''⟩ := mem_pairsFlat.mp hkv'
        rcases hkv'' with rfl | rfl
        · exact hprest (by simpa using ha)
        · exact hprest (by simpa using hb)
    rw [buildDistances, insertPairs_eq_append p rest hnd' hprest d hd1 hd2,
      ih hnd' (d ++ pairsFlat p rest) hdisj', allPairsFlat, List.append_assoc]

/-- A successful lookup exhibits a matching entry. -/
theorem dictGet_some_mem {K V : Type*} [DecidableEq K] :
    ∀ (l : List (K × V)) (k : K) (v : V), dictGet l k = some v → (k, v) ∈ l := by
  intro l
  induction l with
  | nil => intro k v h; simp [dictGet] at h
  | cons kv t ih =>
    intro k v h
    obtain ⟨k', v'⟩ := kv
    rw [dictGet] at h
    by_cases hk : k' = k
    · subst hk
      rw [if_pos rfl] at h
      injection h with h
      subst h
      exact List.mem_cons_self _ _
    · rw [if_neg hk] at h
      exact List.mem_cons_of_mem _ (ih k v h)

/-- Lookup inside one outer iteration's block: both key orders hit the block's
own value for each later planet. -/
theorem dictGet_pairsFlat (p : Planet ℝ) :
    ∀ later : List (Planet ℝ), (later.map Planet.name).Nodup →
      p.name ∉ later.map Planet.name →
      ∀ q ∈ later,
      dictGet (pairsFlat p later) (p.name, q.name) = some (calculate_distance p q) ∧
      dictGet (pairsFlat p later) (q.name, p.name) = some (calculate_distance p q) := by
  intro later
  induction later with
  | nil => intro _ _ q hq; cases hq
  | cons y ys ih =>
    intro hnd hp q hq
    have hpy : p.name ≠ y.name := by
      intro h
      exact hp (by simp [h])
    have hyys : y.name ∉ ys.map Planet.name := by
      simp only [List.map_cons, List.nodup_cons] at hnd
      exact hnd.1
    have hnd' : (ys.map Planet.name).Nodup := by
      simp only [List.map_cons, List.nodup_cons] at hnd
      exact hnd.2
    have hp' : p.name ∉ ys.map Planet.name := by
      simp only [List.map_cons, List.mem_cons] at hp
      exact fun h => hp (Or.inr h)
    have hunf : pairsFlat p (y :: ys) =
        ((p.name, y.name), calculate_distance p y) ::
        ((y.name, p.name), calculate_distance p y) :: pairsFlat p ys := by
      simp [pairsFlat]
    rcases List.mem_cons.mp hq with rfl | hq'
    · constructor
      · rw [hunf, dictGet, if_pos rfl]
      · have h1 : ((p.name, q.name) : String × String) ≠ (q.name, p.name) := by
          intro h
          injection h with ha hb
          exact hpy ha
        rw [hunf, dictGet, if_neg h1, dictGet, if_pos rfl]
    · have hqys : q.name ∈ ys.map Planet.name := List.mem_map_of_mem Planet.name hq'
      have hyq : y.name ≠ q.name := fun h => hyys (h ▸ hqys)
      have hpq : p.name ≠ q.name := fun h => hp' (h ▸ hqys)
      constructor
      · have h1 : ((p.name, y.name) : String × String) ≠ (p.name, q.name) := by
          intro h
          injection h with ha hb
          exact hyq hb
        have h2 : ((y.name, p.name) : String × String) ≠ (p.name, q.name) := by
          intro h
          injection h with ha hb
          exact hpy ha.symm
        rw [hunf, dictGet, if_neg h1, dictGet, if_neg h2]
        exact (ih hnd' hp' q hq').1
      · have h1 : ((p.name, y.name) : String × String) ≠ (q.name, p.name) := by
          intro h
          injection h with ha hb
          exact hpq ha
        have h2 : ((y.name, p.name) : String × String) ≠ (q.name, p.name) := by
          intro h
          injection h with ha hb
          exact hyq ha
        rw [hunf, dictGet, if_neg h1, dictGet, if_neg h2]
        exact (ih hnd' hp' q hq').2

/-- Lookup in the flat pair list: for planets `p` before `q`, both key orders
return their cached distance. -/
theorem dictGet_allPairsFlat :
    ∀ ps : List (Planet ℝ), (ps.map Planet.name).Nodup →
      ∀ p q : Planet ℝ, [p, q].Sublist ps →
      dictGet (allPairsFlat ps) (p.name, q.name) = some (calculate_distance p q) ∧
      dictGet (allPairsFlat ps) (q.name, p.name) = some (calculate_distance p q) := by
  intro ps
  induction ps with
  | nil => intro _ p q h; exact absurd h.length_le (by simp)
  | cons x rest ih =>
    intro hnd p q h
    have hxrest : x.name ∉ rest.map Planet.name := by
      simp only [List.map_cons, List.nodup_cons] at hnd
      exact hnd.1
    have hnd' : (rest.map Planet.name).Nodup := by
      simp only [List.map_cons, List.nodup_cons] at hnd
      exact hnd.2
    cases h with
    | cons _ h' =>
      have hp : p ∈ rest := h'.subset (List.mem_cons_self _ _)
      have hq : q ∈ rest := h'.subset (List.mem_cons_of_mem _ (List.mem_cons_self _ _))
      have hpn : p.name ∈ rest.map Planet.name := List.mem_map_of_mem Planet.name hp
      have hqn : q.name ∈ rest.map Planet.name := List.mem_map_of_mem Planet.name hq
      have hnone1 : dictGet (pairsFlat x rest) (p.name, q.name) = none := by
        rw [dictGet_eq_none_iff]
        intro kv hkv heq
        obtain ⟨y, hy, hkv'⟩ := mem_pairsFlat.mp hkv
        rcases hkv' with rfl | rfl
        · simp only [Prod.mk.injEq] at heq
          exact hxrest (heq.1 ▸ hpn)
        · simp only [Prod.mk.injEq] at heq
          exact hxrest (heq.2 ▸ hqn)
      have hnone2 : dictGet (pairsFlat x rest) (q.name, p.name) = none := by
        rw [dictGet_eq_none_iff]
        intro kv hkv heq
        obtain ⟨y, hy, hkv'⟩ := mem_pairsFlat.mp hkv
        rcases hkv' with rfl | rfl
        · simp only [Prod.mk.injEq] at heq
          exact hxrest (heq.1 ▸ hqn)
        · simp only [Prod.mk.injEq] at heq
          exact hxrest (heq.2 ▸ hpn)
      constructor
      · rw [show allPairsFlat (x :: rest) = pairsFlat x rest ++ allPairsFlat rest from rfl,
          dictGet_append, hnone1]
        exact (ih hnd' p q h').1
      · rw [show allPairsFlat (x :: rest) = pairsFlat x rest ++ allPairsFlat rest from rfl,
          dictGet_append, hnone2]
        exact (ih hnd' p q h').2
    | cons₂ _ h' =>
      have hq : q ∈ rest := List.singleton_sublist.mp h'
      have hget := dictGet_pairsFlat x rest hnd' hxrest q hq
      constructor
      · rw [show allPairsFlat (x :: rest) = pairsFlat x rest ++ allPairsFlat rest from rfl,
          dictGet_append, hget.1]
      · rw [show allPairsFlat (x :: rest) = pairsFlat x rest ++ allPairsFlat rest from rfl,
          dictGet_append, hget.2]

/-- With pairwise-distinct names, a planet of the list is determined by its name. -/
theorem planet_name_inj :
    ∀ {ps : List (Planet ℝ)}, (ps.map Planet.name).Nodup →
      ∀ {p q : Planet ℝ}, p ∈ ps → q ∈ ps → p.name = q.name → p = q := by
  intro ps
  induction ps with
  | nil => intro _ p q hp; cases hp
  | cons x t ih =>
    intro hnd p q hp hq heq
    have hx : x.name ∉ t.map Planet.name := by
      simp only [List.map_cons, List.nodup_cons] at hnd
      exact hnd.1
    have hnd' : (t.map Planet.name).Nodup := by
      simp only [List.map_cons, List.nodup_cons] at hnd
      exact hnd.2
    rcases List.mem_cons.mp hp with rfl | hp' <;> rcases List.mem_cons.mp hq with rfl | hq'
    · rfl
    · exact absurd (heq ▸ List.mem_map_of_mem Planet.name hq') hx
    · exact absurd (heq ▸ List.mem_map_of_mem Planet.name hp') (fun hc => hx hc)
    · exact ih hnd' hp' hq' heq

/-- Names of an ordered pair of distinct planets of a nodup-named list differ. -/
theorem sublist_name_ne {ps : List (Planet ℝ)} (hnd : (ps.map Planet.name).Nodup)
    {p q : Planet ℝ} (h : [p, q].Sublist ps) : p.name ≠ q.name := by
  have hsub : [p.name, q.name].Sublist (ps.map Planet.name) := by
    simpa using h.map Planet.name
  have := hnd.sublist hsub
  simp only [List.nodup_cons, List.mem_singleton] at this
  exact this.1

/-- Keys whose components are not both planet names miss the flat pair list. -/
theorem dictGet_allPairsFlat_none {ps : List (Planet ℝ)} {a b : String}
    (hab : a ∉ ps.map Planet.name ∨ b ∉ ps.map Planet.name) :
    dictGet (allPairsFlat ps) (a, b) = none := by
  rw [dictGet_eq_none_iff]
  intro kv hkv heqk
  obtain ⟨p, q, hsub, hkv'⟩ := mem_allPairsFlat.mp hkv
  have hpmem : p.name ∈ ps.map Planet.name :=
    List.mem_map_of_mem Planet.name (hsub.subset (List.mem_cons_self _ _))
  have hqmem : q.name ∈ ps.map Planet.name :=
    List.mem_map_of_mem Planet.name
      (hsub.subset (List.mem_cons_of_mem _ (List.mem_cons_self _ _)))
  rcases hkv' with rfl | rfl
  · simp only [Prod.mk.injEq] at heqk
    obtain ⟨rfl, rfl⟩ := heqk
    rcases hab with hna | hnb
    · exact hna hpmem
    · exact hnb hqmem
  · simp only [Prod.mk.injEq] at heqk
    obtain ⟨rfl, rfl⟩ := heqk
    rcases hab with hna | hnb
    · exact hna hqmem
    · exact hnb hpmem

/-- C5: for every System generated by `generate_star_system` the distance dict
has exactly `k * (k - 1)` entries where `k` is the planet count — its keys are
exactly the ordered pairs of distinct planet names — and the stored value for
`(a, b)` equals the stored value for `(b, a)` for all names. -/
theorem c5_distance_map_size_and_symmetry (stream : ℕ → String) (coords : ℕ → ℝ)
    (g : GalaxyGenerator) (idx cIdx : ℕ) (np : ℤ) (fuel : ℕ)
    (out : StarSystem ℝ × GalaxyGenerator × ℕ × ℕ)
    (h : generate_star_system stream coords g idx cIdx np fuel = some out) :
    out.1.distances.length = out.1.planets.length * (out.1.planets.length - 1) ∧
    (∀ a b : String, (a, b) ∈ out.1.distances.map Prod.fst ↔
      (a ∈ out.1.planets.map Planet.name ∧ b ∈ out.1.planets.map Planet.name ∧ a ≠ b)) ∧
    (∀ a b : String, dictGet out.1.distances (a, b) = dictGet out.1.distances (b, a)) := by
  obtain ⟨-, hnd, -, hdist⟩ := generate_star_system_spec stream coords g idx cIdx np fuel out h
  have heq : out.1.distances = allPairsFlat out.1.planets := by
    rw [hdist, buildDistances_eq out.1.planets hnd [] (by simp)]
    rfl
  refine ⟨by rw [heq, allPairsFlat_length], ?_, ?_⟩
  · intro a b
    constructor
    · intro hmem
      obtain ⟨kv, hkv, hfst⟩ := List.mem_map.mp hmem
      rw [heq] at hkv
      obtain ⟨p, q, hsub, hkv'⟩ := mem_allPairsFlat.mp hkv
      have hpmem : p ∈ out.1.planets := hsub.subset (List.mem_cons_self _ _)
      have hqmem : q ∈ out.1.planets :=
        hsub.subset (List.mem_cons_of_mem _ (List.mem_cons_self _ _))
      have hne := sublist_name_ne hnd hsub
      rcases hkv' with rfl | rfl
      · simp only [Prod.mk.injEq] at hfst
        obtain ⟨rfl, rfl⟩ := hfst
        exact ⟨List.mem_map_of_mem Planet.name hpmem,
          List.mem_map_of_mem Planet.name hqmem, hne⟩
      · simp only [Prod.mk.injEq] at hfst
        obtain ⟨rfl, rfl⟩ := hfst
        exact ⟨List.mem_map_of_mem Planet.name hqmem,
          List.mem_map_of_mem Planet.name hpmem, fun hc => hne hc.symm⟩
    · rintro ⟨ha, hb, hne⟩
      obtain ⟨pa, hpa, rfl⟩ := List.mem_map.mp ha
      obtain ⟨pb, hpb, rfl⟩ := List.mem_map.mp hb
      have hpane : pa ≠ pb := fun hc => hne (hc ▸ rfl)
      rcases mem_pair_sublist hpane hpa hpb with hsub | hsub
      · exact List.mem_map_of_mem Prod.fst
          (heq ▸ (sublist_mem_allPairsFlat hsub).1)
      · exact List.mem_map_of_mem Prod.fst
          (heq ▸ (sublist_mem_allPairsFlat hsub).2)
  · intro a b
    by_cases hab : a = b
    · rw [hab]
    by_cases ha : a ∈ out.1.planets.map Planet.name
    · by_cases hb : b ∈ out.1.planets.map Planet.name
      · obtain ⟨pa, hpa, rfl⟩ := List.mem_map.mp ha
        obtain ⟨pb, hpb, rfl⟩ := List.mem_map.mp hb
        have hpane : pa ≠ pb := fun hc => hab (hc ▸ rfl)
        rcases mem_pair_sublist hpane hpa hpb with hsub | hsub
        · have hget := dictGet_allPairsFlat out.1.planets hnd pa pb hsub
          rw [heq, hget.1, hget.2]
        · have hget := dictGet_allPairsFlat out.1.planets hnd pb pa hsub
          rw [heq, hget.2, hget.1]
      · rw [heq, dictGet_allPairsFlat_none (Or.inr hb),
          dictGet_allPairsFlat_none (Or.inl hb)]
    · rw [heq, dictGet_allPairsFlat_none (Or.inl ha),
        dictGet_allPairsFlat_none (Or.inr ha)]

/-- C6: in every generated System, the cached distance stored under
`(p1.name, p2.name)` for distinct planets `p1`, `p2` equals the Euclidean
distance between their coordinates rounded to two decimal places. -/
theorem c6_cached_distance_is_rounded_euclidean (stream : ℕ → String) (coords : ℕ → ℝ)
    (g : GalaxyGenerator) (idx cIdx : ℕ) (np : ℤ) (fuel : ℕ)
    (out : StarSystem ℝ × GalaxyGenerator × ℕ × ℕ)
    (h : generate_star_system stream coords g idx cIdx np fuel = some out)
    (p1 p2 : Planet ℝ) (h1 : p1 ∈ out.1.planets) (h2 : p2 ∈ out.1.planets)
    (hne : p1 ≠ p2) :
    dictGet out.1.distances (p1.name, p2.name) =
      some (round2 (Real.sqrt ((p2.coordinates.1 - p1.coordinates.1) ^ 2 +
        (p2.coordinates.2 - p1.coordinates.2) ^ 2))) := by
  obtain ⟨-, hnd, -, hdist⟩ := generate_star_system_spec stream coords g idx cIdx np fuel out h
  have heq : out.1.distances = allPairsFlat out.1.planets := by
    rw [hdist, buildDistances_eq out.1.planets hnd [] (by simp)]
    rfl
  rcases mem_pair_sublist hne h1 h2 with hsub | hsub
  · rw [heq, (dictGet_allPairsFlat out.1.planets hnd p1 p2 hsub).1]
    rfl
  · rw [heq, (dictGet_allPairsFlat out.1.planets hnd p2 p1 hsub).2,
      calculate_distance_comm]
    rfl

/-- Concrete planets of the sample two-planet generation used by witnesses. -/
def samplePlanet1 : Planet ℝ := ⟨"PLT-1", (0, 0)⟩

/-- Second planet of the sample generation. -/
def samplePlanet2 : Planet ℝ := ⟨"PLT-2", (0, 0)⟩

/-- The System produced by the sample two-planet generation below. -/
noncomputable def sampleSys : StarSystem ℝ :=
  ⟨"SYS-0", [samplePlanet1, samplePlanet2],
   [(("PLT-1", "PLT-2"), calculate_distance samplePlanet1 samplePlanet2),
    (("PLT-2", "PLT-1"), calculate_distance samplePlanet1 samplePlanet2)]⟩

/-- A concrete successful two-planet generation (suffix stream `toString`, all
coordinates zero). -/
theorem sampleGen_eq :
    generate_star_system (fun n => toString n) (fun _ => 0) ⟨[], []⟩ 0 0 2 1 =
      some (sampleSys, ⟨[], ["PLT-2", "PLT-1", "SYS-0"]⟩, 3, 4) := rfl

theorem c5_witness :
    generate_star_system (fun n => toString n) (fun _ => 0) ⟨[], []⟩ 0 0 2 1 =
      some (sampleSys, ⟨[], ["PLT-2", "PLT-1", "SYS-0"]⟩, 3, 4) ∧
    (sampleSys.distances.length = sampleSys.planets.length * (sampleSys.planets.length - 1) ∧
     (∀ a b : String, (a, b) ∈ sampleSys.distances.map Prod.fst ↔
        (a ∈ sampleSys.planets.map Planet.name ∧ b ∈ sampleSys.planets.map Planet.name ∧
          a ≠ b)) ∧
     (∀ a b : String, dictGet sampleSys.distances (a, b) = dictGet sampleSys.distances (b, a))) :=
  ⟨sampleGen_eq,
   c5_distance_map_size_and_symmetry (fun n => toString n) (fun _ => 0) ⟨[], []⟩ 0 0 2 1
     (sampleSys, ⟨[], ["PLT-2", "PLT-1", "SYS-0"]⟩, 3, 4) sampleGen_eq⟩

theorem c6_witness :
    generate_star_system (fun n => toString n) (fun _ => 0) ⟨[], []⟩ 0 0 2 1 =
      some (sampleSys, ⟨[], ["PLT-2", "PLT-1", "SYS-0"]⟩, 3, 4) ∧
    samplePlanet1 ∈ sampleSys.planets ∧ samplePlanet2 ∈ sampleSys.planets ∧
    samplePlanet1 ≠ samplePlanet2 ∧
    dictGet sampleSys.distances (samplePlanet1.name, samplePlanet2.name) =
      some (round2 (Real.sqrt
        ((samplePlanet2.coordinates.1 - samplePlanet1.coordinates.1) ^ 2 +
         (samplePlanet2.coordinates.2 - samplePlanet1.coordinates.2) ^ 2))) := by
  have hm1 : samplePlanet1 ∈ sampleSys.planets := List.mem_cons_self _ _
  have hm2 : samplePlanet2 ∈ sampleSys.planets :=
    List.mem_cons_of_mem _ (List.mem_cons_self _ _)
  have hne : samplePlanet1 ≠ samplePlanet2 := by
    intro hc
    exact absurd (congrArg Planet.name hc) (by decide)
  exact ⟨sampleGen_eq, hm1, hm2, hne,
    c6_cached_distance_is_rounded_euclidean (fun n => toString n) (fun _ => 0) ⟨[], []⟩
      0 0 2 1 (sampleSys, ⟨[], ["PLT-2", "PLT-1", "SYS-0"]⟩, 3, 4) sampleGen_eq
      samplePlanet1 samplePlanet2 hm1 hm2 hne⟩

/-- The fold inside `findMin` returns one of its candidates. -/
theorem findMin_fold_mem {α : Type} [LinearOrder α] :
    ∀ (t : List (α × String)) (acc : α × String),
      t.foldl (fun m y => if pairLt y m then y else m) acc = acc ∨
      t.foldl (fun m y => if pairLt y m then y else m) acc ∈ t := by
  intro t
  induction t with
  | nil => intro acc; exact Or.inl rfl
  | cons y ys ih =>
    intro acc
    rw [List.foldl_cons]
    by_cases hy : pairLt y acc
    · rw [if_pos hy]
      rcases ih y with h | h
      · exact Or.inr (List.mem_cons.mpr (Or.inl h))
      · exact Or.inr (List.mem_cons_of_mem _ h)
    · rw [if_neg hy]
      rcases ih acc with h | h
      · exact Or.inl h
      · exact Or.inr (List.mem_cons_of_mem _ h)

/-- The fold inside `findMin` minimizes the first (distance) component. -/
theorem findMin_fold_fst_le {α : Type} [LinearOrder α] :
    ∀ (t : List (α × String)) (acc : α × String),
      (t.foldl (fun m y => if pairLt y m then y else m) acc).1 ≤ acc.1 ∧
      ∀ x ∈ t, (t.foldl (fun m y => if pairLt y m then y else m) acc).1 ≤ x.1 := by
  intro t
  induction t with
  | nil => intro acc; exact ⟨le_refl _, by simp⟩
  | cons y ys ih =>
    intro acc
    rw [List.foldl_cons]
    by_cases hy : pairLt y acc
    · rw [if_pos hy]
      have hy1 : y.1 ≤ acc.1 := by
        rcases hy with h | ⟨h, -⟩
        · exact le_of_lt h
        · exact le_of_eq h
      refine ⟨le_trans (ih y).1 hy1, ?_⟩
      intro x hx
      rcases List.mem_cons.mp hx with h | hx'
      · rw [h]
        exact (ih y).1
      · exact (ih y).2 x hx'
    · rw [if_neg hy]
      have hy1 : acc.1 ≤ y.1 := by
        rcases lt_trichotomy y.1 acc.1 with h | h | h
        · exact absurd (Or.inl h) hy
        · exact le_of_eq h.symm
        · exact le_of_lt h
      refine ⟨(ih acc).1, ?_⟩
      intro x hx
      rcases List.mem_cons.mp hx with h | hx'
      · rw [h]
        exact le_trans (ih acc).1 hy1
      · exact (ih acc).2 x hx'

/-- `heappop` on the empty queue only. -/
theorem popMin_eq_none_iff {α : Type} [LinearOrder α] (l : List (α × String)) :
    popMin l = none ↔ l = [] := by
  cases l with
  | nil => simp [popMin, findMin]
  | cons x t => simp [popMin, findMin]

/-- What `heappop` guarantees: the popped entry is an entry, the remaining
queue is the list minus one occurrence of it, and its distance is minimal. -/
theorem popMin_spec {α : Type} [LinearOrder α] {l rest : List (α × String)}
    {m : α × String} (h : popMin l = some (m, rest)) :
    m ∈ l ∧ rest = l.erase m ∧ ∀ x ∈ l, m.1 ≤ x.1 := by
  cases l with
  | nil => simp [popMin, findMin] at h
  | cons x t =>
    simp only [popMin, findMin, Option.map_some, Option.some.injEq, Prod.mk.injEq] at h
    obtain ⟨rfl, rfl⟩ := h
    refine ⟨?_, rfl, ?_⟩
    · rcases findMin_fold_mem t x with h | h
      · exact List.mem_cons.mpr (Or.inl h)
      · exact List.mem_cons_of_mem _ h
    · intro z hz
      rcases List.mem_cons.mp hz with h | hz'
      · rw [h]
        exact (findMin_fold_fst_le t x).1
      · exact (findMin_fold_fst_le t x).2 z hz'

/-- C9: for every System (with any distance dict whatsoever) and every node
name `A` in it, `find_shortest_path sys A A` returns `([A], 0)`: the seed entry
is popped, it is the target, the loop breaks before any relaxation, and the
reconstruction stops at `A`'s `None` predecessor. -/
theorem c9_trivial_path {α : Type} [LinearOrderedAddCommMonoid α] (sys : StarSystem α)
    (A : String) (hA : A ∈ sys.planets.map Planet.name) (fuel : ℕ) (hfuel : 1 ≤ fuel) :
    find_shortest_path sys A A fuel = some (.ok ([A], (0 : WithTop α))) := by
  obtain ⟨f, rfl⟩ : ∃ f, fuel = f + 1 := ⟨fuel - 1, by omega⟩
  have hpop : popMin ([((0 : α), A)] : List (α × String)) = some ((0, A), []) := by
    simp [popMin, findMin]
  simp only [find_shortest_path, dijkstraLoop, hpop, List.not_mem_nil, if_false,
    if_pos rfl, walk, if_pos hA]
  simp only [if_true]
  rw [if_pos hA]
  simp [walk, Function.update_same]

theorem c9_witness :
    "A" ∈ ([⟨"A", ((0 : ℕ), 0)⟩] : List (Planet ℕ)).map Planet.name ∧ 1 ≤ 1 ∧
    find_shortest_path (⟨"S", [⟨"A", (0, 0)⟩], []⟩ : StarSystem ℕ) "A" "A" 1 =
      some (.ok (["A"], (0 : WithTop ℕ))) :=
  ⟨by decide, by decide,
   c9_trivial_path (⟨"S", [⟨"A", (0, 0)⟩], []⟩ : StarSystem ℕ) "A" (by decide) 1 (by decide)⟩

/-- C4 counterexample: on a System whose distance dict is empty (endName
unreachable), the predecessor walk from `"B"` hits a `None` predecessor without
reaching `"A"`, and `find_shortest_path` returns the partial non-start-anchored
path `(["B"], ∞)` — no explicit "no path" outcome is signalled. -/
theorem c4_counterexample :
    find_shortest_path (⟨"S", [⟨"A", (0, 0)⟩, ⟨"B", (0, 0)⟩], []⟩ : StarSystem ℕ)
        "A" "B" 2 = some (.ok (["B"], ⊤)) ∧
    (["B"] : List String).head? ≠ some "A" :=
  ⟨by decide, by decide⟩

/-- When the current node has no outgoing entries in the distance dict, the
relaxation loop is a no-op. -/
theorem relaxAll_no_edges {α : Type} [LinearOrderedAddCommMonoid α] (sys : StarSystem α)
    (s : String) (d : α) (st : DState α)
    (hnoedge : ∀ b, dictGet sys.distances (s, b) = none) :
    relaxAll sys s d st = st := by
  unfold relaxAll
  suffices h : ∀ (ps : List (Planet α)) (st : DState α),
      ps.foldl (relaxStep sys s d) st = st from h sys.planets st
  intro ps
  induction ps with
  | nil => intro st; rfl
  | cons p pt ih =>
    intro st
    rw [List.foldl_cons]
    have hstep : relaxStep sys s d st p = st := by
      unfold relaxStep
      by_cases hp : p.name = s
      · rw [if_pos hp]
      · rw [if_neg hp, hnoedge p.name]
    rw [hstep, ih st]

/-- Helper: when no distance entry at all leaves `startName`, the single loop
iteration is a no-op, the queue empties, and the call returns the partial path
`[endName]` with reported distance infinity. -/
theorem no_outgoing_edges_partial_path {α : Type} [LinearOrderedAddCommMonoid α]
    (sys : StarSystem α) (s e : String)
    (he : e ∈ sys.planets.map Planet.name) (hne : s ≠ e)
    (hnoedge : ∀ b, dictGet sys.distances (s, b) = none)
    (fuel : ℕ) (hfuel : 2 ≤ fuel) :
    find_shortest_path sys s e fuel = some (.ok ([e], (⊤ : WithTop α))) := by
  obtain ⟨f, rfl⟩ : ∃ f, fuel = f + 2 := ⟨fuel - 2, by omega⟩
  have hpop : popMin ([((0 : α), s)] : List (α × String)) = some ((0, s), []) := by
    simp [popMin, findMin]
  have hrelax := relaxAll_no_edges sys s 0
    (⟨Function.update (fun _ => (⊤ : WithTop α)) s 0,
      fun n => if n ∈ sys.planets.map Planet.name then some none else none,
      [], [s]⟩ : DState α) hnoedge
  have hemp : popMin ([] : List (α × String)) = none := by simp [popMin, findMin]
  simp only [find_shortest_path, dijkstraLoop, hpop, List.not_mem_nil, if_false,
    if_neg hne, if_true]
  rw [hrelax]
  simp only [dijkstraLoop, hemp]
  simp only [walk]
  rw [if_pos he]
  simp [walk, Function.update_noteq (Ne.symm hne)]

/-- C3 counterexample: `find_shortest_path` performs no membership validation.
With `startName = "C"` absent from the two-node System, no precondition error
is signalled: the algorithm runs and the call returns the normal value
`(["B"], ∞)`. -/
theorem c3_counterexample :
    find_shortest_path (⟨"S", [⟨"A", (0, 0)⟩, ⟨"B", (0, 0)⟩],
        [(("A", "B"), 5), (("B", "A"), 5)]⟩ : StarSystem ℕ) "C" "B" 10 =
      some (.ok (["B"], ⊤)) ∧
    "C" ∉ ([⟨"A", ((0 : ℕ), 0)⟩, ⟨"B", (0, 0)⟩] : List (Planet ℕ)).map Planet.name :=
  ⟨by decide, by decide⟩

/-- Cost of a two-step-or-longer sequence, unfolded. -/
theorem pathCost_cons_cons {α : Type} [LinearOrderedAddCommMonoid α] (sys : StarSystem α)
    (a b : String) (t : List String) (c : α) :
    pathCost sys (a :: b :: t) = some c ↔
      ∃ w c', dictGet sys.distances (a, b) = some w ∧ pathCost sys (b :: t) = some c' ∧
        c = w + c' := by
  cases hg : dictGet sys.distances (a, b) with
  | none => simp [pathCost, hg]
  | some w =>
    cases hp : pathCost sys (b :: t) with
    | none => simp [pathCost, hg, hp]
    | some c' =>
      simp only [pathCost, hg, hp, Option.some.injEq]
      constructor
      · rintro rfl
        exact ⟨w, c', rfl, rfl, rfl⟩
      · rintro ⟨w', c'', hw, hc, rfl⟩
        rw [hw, hc]

/-- A costed sequence is nonempty and its cost is a sum of looked-up weights,
hence nonnegative when all stored weights are. -/
theorem pathCost_nonneg {α : Type} [LinearOrderedAddCommMonoid α] (sys : StarSystem α)
    (hnn : ∀ k w, dictGet sys.distances k = some w → 0 ≤ w) :
    ∀ (q : List String) (c : α), pathCost sys q = some c → 0 ≤ c := by
  intro q
  induction q with
  | nil => intro c h; simp [pathCost] at h
  | cons a t ih =>
    intro c h
    cases t with
    | nil =>
      simp only [pathCost, Option.some.injEq] at h
      rw [← h]
    | cons b t' =>
      obtain ⟨w, c', hw, hc, rfl⟩ := (pathCost_cons_cons sys a b t' c).mp h
      exact add_nonneg (hnn _ _ hw) (ih c' hc)

/-- Splitting a costed sequence ending in `v` off its last edge. -/
theorem pathCost_concat {α : Type} [LinearOrderedAddCommMonoid α] (sys : StarSystem α) :
    ∀ (q : List String) (v : String) (c : α), q ≠ [] →
      pathCost sys (q ++ [v]) = some c →
      ∃ y c' w, q.getLast? = some y ∧ pathCost sys q = some c' ∧
        dictGet sys.distances (y, v) = some w ∧ c = c' + w := by
  intro q
  induction q with
  | nil => intro v c hne; exact absurd rfl hne
  | cons a t ih =>
    intro v c _ h
    cases t with
    | nil =>
      obtain ⟨w, c', hw, hc, rfl⟩ := (pathCost_cons_cons sys a v [] c).mp h
      simp only [pathCost, Option.some.injEq] at hc
      exact ⟨a, 0, w, rfl, rfl, hw, by rw [← hc, add_zero, zero_add]⟩
    | cons b t' =>
      rw [List.cons_append] at h
      obtain ⟨w, c', hw, hc, rfl⟩ :=
        (pathCost_cons_cons sys a b (t' ++ [v]) c).mp (by simpa using h)
      obtain ⟨y, c'', w', hy, hc', hw', rfl⟩ := ih v c' (by simp) hc
      refine ⟨y, w + c'', w', ?_, ?_, hw', by rw [add_assoc]⟩
      · rw [List.getLast?_cons_cons]
        exact hy
      · exact (pathCost_cons_cons sys a b t' (w + c'')).mpr ⟨w, c'', hw, hc', rfl⟩

/-- Splitting a costed sequence at an interior node. -/
theorem pathCost_append_mid {α : Type} [LinearOrderedAddCommMonoid α] (sys : StarSystem α) :
    ∀ (q1 : List String) (z : String) (q2 : List String) (c : α),
      pathCost sys (q1 ++ z :: q2) = some c →
      ∃ c1 c2, pathCost sys (q1 ++ [z]) = some c1 ∧ pathCost sys (z :: q2) = some c2 ∧
        c = c1 + c2 := by
  intro q1
  induction q1 with
  | nil =>
    intro z q2 c h
    exact ⟨0, c, rfl, h, (zero_add c).symm⟩
  | cons a t ih =>
    intro z q2 c h
    cases t with
    | nil =>
      obtain ⟨w, c', hw, hc, rfl⟩ := (pathCost_cons_cons sys a z q2 c).mp (by simpa using h)
      refine ⟨w + 0, c', ?_, hc, by rw [add_zero]⟩
      exact (pathCost_cons_cons sys a z [] (w + 0)).mpr ⟨w, 0, hw, rfl, rfl⟩
    | cons b t' =>
      obtain ⟨w, c', hw, hc, rfl⟩ :=
        (pathCost_cons_cons sys a b (t' ++ z :: q2) c).mp (by simpa using h)
      obtain ⟨c1', c2, hc1, hc2, rfl⟩ := ih z q2 c' hc
      refine ⟨w + c1', c2, ?_, hc2, by rw [add_assoc]⟩
      exact (pathCost_cons_cons sys a b (t' ++ [z]) (w + c1')).mpr
        ⟨w, c1', hw, by simpa using hc1, rfl⟩

/-- Heads agree when replacing the tail after an interior node. -/
theorem head_append_mid (q1 : List String) (z : String) (q2 : List String) :
    (q1 ++ z :: q2).head? = (q1 ++ [z]).head? := by
  cases q1 <;> simp

/-- Every list with a member outside `V` splits at its first such member. -/
theorem exists_first_not_mem (V : List String) :
    ∀ q : List String, (∃ x ∈ q, x ∉ V) →
      ∃ q1 z q2, q = q1 ++ z :: q2 ∧ (∀ x ∈ q1, x ∈ V) ∧ z ∉ V := by
  intro q
  induction q with
  | nil =>
    rintro ⟨x, hx, -⟩
    cases hx
  | cons a t ih =>
    intro hex
    by_cases ha : a ∈ V
    · have hex' : ∃ x ∈ t, x ∉ V := by
        obtain ⟨x, hx, hxv⟩ := hex
        rcases List.mem_cons.mp hx with rfl | hx'
        · exact absurd ha hxv
        · exact ⟨x, hx', hxv⟩
      obtain ⟨q1, z, q2, rfl, hq1, hz⟩ := ih hex'
      refine ⟨a :: q1, z, q2, rfl, ?_, hz⟩
      intro x hx
      rcases List.mem_cons.mp hx with rfl | h
      · exact ha
      · exact hq1 x h
    · exact ⟨[], a, t, rfl, by simp, ha⟩

/-- Each relaxation step either leaves the state unchanged, or performs
exactly one improvement: update distance and predecessor of the target and
push a queue entry. -/
theorem relaxStep_eq_or {α : Type} [LinearOrderedAddCommMonoid α] (sys : StarSystem α)
    (u : String) (d : α) (st : DState α) (p : Planet α) :
    relaxStep sys u d st p = st ∨
    ∃ w, dictGet sys.distances (u, p.name) = some w ∧
      ((↑(d + w) : WithTop α) < st.dist p.name) ∧ p.name ≠ u ∧
      relaxStep sys u d st p =
        ⟨Function.update st.dist p.name ↑(d + w),
         Function.update st.prev p.name (some (some u)),
         st.pq ++ [(d + w, p.name)], st.visited⟩ := by
  unfold relaxStep
  by_cases hp : p.name = u
  · exact Or.inl (by rw [if_pos hp])
  · rw [if_neg hp]
    cases hg : dictGet sys.distances (u, p.name) with
    | none => exact Or.inl rfl
    | some w =>
      by_cases hlt : (↑(d + w) : WithTop α) < st.dist p.name
      · exact Or.inr ⟨w, rfl, hlt, hp, by dsimp only; rw [if_pos hlt]⟩
      · exact Or.inl (by dsimp only; rw [if_neg hlt])

/-- One relaxation step never increases any tentative distance. -/
theorem relaxStep_dist_le {α : Type} [LinearOrderedAddCommMonoid α] (sys : StarSystem α)
    (u : String) (d : α) (st : DState α) (p : Planet α) (v : String) :
    (relaxStep sys u d st p).dist v ≤ st.dist v := by
  rcases relaxStep_eq_or sys u d st p with h | ⟨w, hw, hlt, hpu, h⟩
  · rw [h]
  · rw [h]
    dsimp only
    by_cases hv : v = p.name
    · subst hv
      rw [Function.update_same]
      exact le_of_lt hlt
    · rw [Function.update_noteq hv]

/-- The relaxation loop leaves the visited set unchanged. -/
theorem relaxFold_visited {α : Type} [LinearOrderedAddCommMonoid α] (sys : StarSystem α)
    (u : String) (d : α) :
    ∀ (ps : List (Planet α)) (st : DState α),
      (ps.foldl (relaxStep sys u d) st).visited = st.visited := by
  intro ps
  induction ps with
  | nil => intro st; rfl
  | cons p pt ih =>
    intro st
    rw [List.foldl_cons, ih]
    rcases relaxStep_eq_or sys u d st p with h | ⟨w, -, -, -, h⟩ <;> rw [h]

/-- The relaxation loop never increases any tentative distance. -/
theorem relaxFold_dist_le {α : Type} [LinearOrderedAddCommMonoid α] (sys : StarSystem α)
    (u : String) (d : α) :
    ∀ (ps : List (Planet α)) (st : DState α) (v : String),
      (ps.foldl (relaxStep sys u d) st).dist v ≤ st.dist v := by
  intro ps
  induction ps with
  | nil => intro st v; exact le_refl _
  | cons p pt ih =>
    intro st v
    rw [List.foldl_cons]
    exact le_trans (ih _ v) (relaxStep_dist_le sys u d st p v)

/-- The relaxation loop only pushes, never pops. -/
theorem relaxFold_pq_super {α : Type} [LinearOrderedAddCommMonoid α] (sys : StarSystem α)
    (u : String) (d : α) :
    ∀ (ps : List (Planet α)) (st : DState α) (x : α × String),
      x ∈ st.pq → x ∈ (ps.foldl (relaxStep sys u d) st).pq := by
  intro ps
  induction ps with
  | nil => intro st x hx; exact hx
  | cons p pt ih =>
    intro st x hx
    rw [List.foldl_cons]
    refine ih _ x ?_
    rcases relaxStep_eq_or sys u d st p with h | ⟨w, -, -, -, h⟩
    · rw [h]; exact hx
    · rw [h]; exact List.mem_append_left _ hx

/-- The relaxation loop pushes at most one entry per planet. -/
theorem relaxFold_pq_len {α : Type} [LinearOrderedAddCommMonoid α] (sys : StarSystem α)
    (u : String) (d : α) :
    ∀ (ps : List (Planet α)) (st : DState α),
      (ps.foldl (relaxStep sys u d) st).pq.length ≤ st.pq.length + ps.length := by
  intro ps
  induction ps with
  | nil => intro st; simp
  | cons p pt ih =>
    intro st
    rw [List.foldl_cons]
    refine le_trans (ih _) ?_
    have hstep : (relaxStep sys u d st p).pq.length ≤ st.pq.length + 1 := by
      rcases relaxStep_eq_or sys u d st p with h | ⟨w, -, -, -, h⟩
      · rw [h]; omega
      · rw [h]; simp
    simp only [List.length_cons]
    omega

/-- Per-node dichotomy of the relaxation loop: each node is either untouched,
or it was improved through the current node `u`: its distance is now
`d + w(u, v)`, strictly smaller than before, its predecessor is `u`, and a
matching queue entry was pushed. -/
theorem relaxFold_dichotomy {α : Type} [LinearOrderedAddCommMonoid α] (sys : StarSystem α)
    (u : String) (d : α) :
    ∀ (ps : List (Planet α)) (st : DState α) (v : String),
      ((ps.foldl (relaxStep sys u d) st).dist v = st.dist v ∧
       (ps.foldl (relaxStep sys u d) st).prev v = st.prev v) ∨
      (∃ w, dictGet sys.distances (u, v) = some w ∧
        (ps.foldl (relaxStep sys u d) st).dist v = ↑(d + w) ∧
        (ps.foldl (relaxStep sys u d) st).dist v < st.dist v ∧
        (ps.foldl (relaxStep sys u d) st).prev v = some (some u) ∧
        v ∈ ps.map Planet.name ∧ v ≠ u ∧
        (d + w, v) ∈ (ps.foldl (relaxStep sys u d) st).pq) := by
  intro ps
  induction ps with
  | nil => intro st v; exact Or.inl ⟨rfl, rfl⟩
  | cons p pt ih =>
    intro st v
    rw [List.foldl_cons]
    rcases relaxStep_eq_or sys u d st p with h | ⟨w, hw, hlt, hpu, h⟩
    · rw [h]
      rcases ih st v with hIH | ⟨w, hw, hd, hlt, hpv, hmem, hvu, hpq⟩
      · exact Or.inl hIH
      · right
        refine ⟨w, hw, hd, hlt, hpv, ?_, hvu, hpq⟩
        simp only [List.map_cons, List.mem_cons]
        exact Or.inr hmem
    · rw [h]
      rcases ih ⟨Function.update st.dist p.name ↑(d + w),
          Function.update st.prev p.name (some (some u)),
          st.pq ++ [(d + w, p.name)], st.visited⟩ v with ⟨hd, hp⟩ |
          ⟨w', hw', hd, hlt', hpv, hmem, hvu, hpq⟩
      · dsimp only at hd hp
        by_cases hv : v = p.name
        · subst hv
          right
          refine ⟨w, hw, ?_, ?_, ?_, by simp, hpu, ?_⟩
          · rw [hd]
            exact Function.update_same _ _ _
          · rw [hd, Function.update_same]
            exact hlt
          · rw [hp]
            exact Function.update_same _ _ _
          · refine relaxFold_pq_super sys u d pt _ _ ?_
            dsimp only
            exact List.mem_append_right _ (List.mem_singleton.mpr rfl)
        · rw [Function.update_noteq hv] at hd
          rw [Function.update_noteq hv] at hp
          exact Or.inl ⟨hd, hp⟩
      · right
        have hle : (Function.update st.dist p.name (↑(d + w) : WithTop α)) v ≤ st.dist v := by
          by_cases hv : v = p.name
          · subst hv
            rw [Function.update_same]
            exact le_of_lt hlt
          · rw [Function.update_noteq hv]
        refine ⟨w', hw', hd, lt_of_lt_of_le hlt' hle, hpv, ?_, hvu, hpq⟩
        simp only [List.map_cons, List.mem_cons]
        exact Or.inr hmem

/-- Queue entries after the relaxation loop: old ones, or pushes recording the
then-current improved distance of their node — which the rest of the loop
cannot improve again (same key, same weight), so it is still current. -/
theorem relaxFold_pq_mem {α : Type} [LinearOrderedAddCommMonoid α] (sys : StarSystem α)
    (u : String) (d : α) :
    ∀ (ps : List (Planet α)) (st : DState α) (x : α × String),
      x ∈ (ps.foldl (relaxStep sys u d) st).pq →
      x ∈ st.pq ∨ ∃ w, dictGet sys.distances (u, x.2) = some w ∧ x.1 = d + w ∧
        x.2 ∈ ps.map Planet.name ∧ x.2 ≠ u ∧
        (↑x.1 : WithTop α) = (ps.foldl (relaxStep sys u d) st).dist x.2 := by
  intro ps
  induction ps with
  | nil => intro st x hx; exact Or.inl hx
  | cons p pt ih =>
    intro st x hx
    rw [List.foldl_cons] at hx ⊢
    rcases ih (relaxStep sys u d st p) x hx with hx' | ⟨w, hw, hx1, hmem, hxu, hcur⟩
    · rcases relaxStep_eq_or sys u d st p with h | ⟨w, hw, hlt, hpu, h⟩
      · rw [h] at hx'
        exact Or.inl hx'
      · rw [h] at hx'
        dsimp only at hx'
        rcases List.mem_append.mp hx' with hx'' | hx''
        · exact Or.inl hx''
        · right
          rw [List.mem_singleton] at hx''
          subst hx''
          refine ⟨w, hw, rfl, by simp, hpu, ?_⟩
          show (↑(d + w) : WithTop α) =
            (pt.foldl (relaxStep sys u d) (relaxStep sys u d st p)).dist p.name
          rcases relaxFold_dichotomy sys u d pt (relaxStep sys u d st p) p.name with
            ⟨hd, -⟩ | ⟨w', hw', hd, hlt', -, -, -, -⟩
          · rw [hd, h]
            dsimp only
            rw [Function.update_same]
          · rw [hw] at hw'
            injection hw' with hw'
            subst hw'
            rw [hd] at hlt'
            rw [h] at hlt'
            dsimp only at hlt'
            rw [Function.update_same] at hlt'
            exact absurd hlt' (lt_irrefl _)
    · right
      refine ⟨w, hw, hx1, ?_, hxu, hcur⟩
      simp only [List.map_cons, List.mem_cons]
      exact Or.inr hmem

/-- Processing a planet bounds its tentative distance by `d + w`. -/
theorem relaxStep_relaxes {α : Type} [LinearOrderedAddCommMonoid α] (sys : StarSystem α)
    (u : String) (d : α) (st : DState α) (p : Planet α) (hpu : p.name ≠ u) (w : α)
    (hw : dictGet sys.distances (u, p.name) = some w) :
    (relaxStep sys u d st p).dist p.name ≤ ↑(d + w) := by
  unfold relaxStep
  rw [if_neg hpu, hw]
  dsimp only
  by_cases hlt : (↑(d + w) : WithTop α) < st.dist p.name
  · rw [if_pos hlt]
    dsimp only
    rw [Function.update_same]
  · rw [if_neg hlt]
    exact not_lt.mp hlt

/-- After the relaxation loop from `u`, every neighbour reachable by a stored
edge from `u` has tentative distance at most `d + w(u, ·)`. -/
theorem relaxFold_relaxes {α : Type} [LinearOrderedAddCommMonoid α] (sys : StarSystem α)
    (u : String) (d : α) :
    ∀ (ps : List (Planet α)) (st : DState α), ∀ p ∈ ps, p.name ≠ u → ∀ w,
      dictGet sys.distances (u, p.name) = some w →
      (ps.foldl (relaxStep sys u d) st).dist p.name ≤ ↑(d + w) := by
  intro ps
  induction ps with
  | nil => intro st p hp; cases hp
  | cons p0 pt ih =>
    intro st p hp hpu w hw
    rw [List.foldl_cons]
    rcases List.mem_cons.mp hp with rfl | hp'
    · exact le_trans (relaxFold_dist_le sys u d pt _ p.name)
        (relaxStep_relaxes sys u d st p hpu w hw)
    · exact ih _ p hp' hpu w hw

/-- The last element of a list is a member. -/
theorem mem_of_getLast?_eq {β : Type*} {l : List β} {x : β} (h : l.getLast? = some x) :
    x ∈ l := by
  obtain ⟨hne, hx⟩ := List.mem_getLast?_eq_getLast (Option.mem_def.mpr h)
  rw [hx]
  exact List.getLast_mem hne

/-- Loop invariant of the Dijkstra main loop (visited list is newest-first).
`opt` is the classic "settled nodes have optimal distances" property, `relaxed`
says settled nodes have been fully relaxed, `fresh` guarantees a live queue
entry for every unvisited node with a finite tentative distance, and the
`prev_*` fields describe the predecessor dict used by path reconstruction. -/
structure DInv {α : Type} [LinearOrderedAddCommMonoid α] (sys : StarSystem α)
    (startP endP : String) (st : DState α) : Prop where
  dist_start : st.dist startP = 0
  dist_nonneg : ∀ v, 0 ≤ st.dist v
  pq_nonneg : ∀ x ∈ st.pq, 0 ≤ x.1
  pq_names : ∀ x ∈ st.pq, x.2 ∈ sys.planets.map Planet.name
  pq_dom : ∀ x ∈ st.pq, st.dist x.2 ≤ ↑x.1
  vis_names : ∀ v ∈ st.visited, v ∈ sys.planets.map Planet.name
  vis_nodup : st.visited.Nodup
  vis_fin : ∀ v ∈ st.visited, st.dist v ≠ ⊤
  vis_min : ∀ v ∈ st.visited, ∀ x ∈ st.pq, st.dist v ≤ ↑x.1
  fresh : ∀ v, v ∉ st.visited → st.dist v ≠ ⊤ → ∃ dv : α, (dv, v) ∈ st.pq ∧ st.dist v = ↑dv
  relaxed : ∀ y ∈ st.visited, ∀ p ∈ sys.planets, p.name ≠ y → ∀ w,
    dictGet sys.distances (y, p.name) = some w → st.dist p.name ≤ st.dist y + ↑w
  opt : ∀ v ∈ st.visited, ∀ (q : List String) (c : α), q.head? = some startP →
    q.getLast? = some v → pathCost sys q = some c → st.dist v ≤ ↑c
  prev_closed : ∀ v u, st.prev v = some (some u) → u ∈ st.visited ∧
    v ∈ sys.planets.map Planet.name ∧ v ≠ startP ∧
    ∃ w, dictGet sys.distances (u, v) = some w ∧ st.dist v = st.dist u + ↑w
  prev_order : ∀ v u, st.prev v = some (some u) → v ∈ st.visited →
    st.visited.indexOf v < st.visited.indexOf u
  prev_start : st.prev startP = some none
  fin_has_prev : ∀ v, v ≠ startP → st.dist v ≠ ⊤ → ∃ u, st.prev v = some (some u)
  end_not_vis : endP ∉ st.visited
  reach : st.dist endP ≠ ⊤ ∨ startP ∉ st.visited

/-- Bound on any path whose interior is settled: the target's tentative
distance is at most the path's cost. -/
theorem frontier_bound {α : Type} [LinearOrderedAddCommMonoid α] {sys : StarSystem α}
    {startP endP : String}
    (hkeys : ∀ a b w, dictGet sys.distances (a, b) = some w →
      a ∈ sys.planets.map Planet.name ∧ b ∈ sys.planets.map Planet.name ∧ a ≠ b ∧ 0 ≤ w)
    {st : DState α} (inv : DInv sys startP endP st) :
    ∀ (q : List String) (v : String) (c : α), q.head? = some startP →
      q.getLast? = some v → (∀ x ∈ q.dropLast, x ∈ st.visited) →
      pathCost sys q = some c → st.dist v ≤ ↑c := by
  intro q
  induction q using List.reverseRecOn with
  | nil => intro v c h; simp at h
  | append_singleton q' v' ih =>
    intro v c hhead hlast hdrop hcost
    have hv : v = v' := by
      rw [List.getLast?_concat] at hlast
      injection hlast with hlast
      exact hlast.symm
    subst hv
    cases hq' : q' with
    | nil =>
      subst hq'
      simp only [List.nil_append, List.head?_cons, Option.some.injEq] at hhead
      subst hhead
      simp only [pathCost, Option.some.injEq] at hcost
      rw [inv.dist_start, ← hcost]
      exact le_refl _
    | cons a t =>
      have hne : q' ≠ [] := by rw [hq']; simp
      obtain ⟨y, c', w, hy, hc', hw, rfl⟩ := pathCost_concat sys q' v c hne hcost
      have hymem : y ∈ st.visited := by
        refine hdrop y ?_
        rw [List.dropLast_concat]
        exact mem_of_getLast?_eq hy
      have hheadq' : q'.head? = some startP := by
        rw [hq'] at hhead ⊢
        simpa using hhead
      have hdisty : st.dist y ≤ ↑c' := inv.opt y hymem q' c' hheadq' hy hc'
      obtain ⟨-, hvmem, hyv, -⟩ := hkeys y v w hw
      obtain ⟨p, hp, hpname⟩ := List.mem_map.mp hvmem
      have hrel := inv.relaxed y hymem p hp (by rw [hpname]; exact fun hc => hyv hc.symm) w
        (by rw [hpname]; exact hw)
      rw [hpname] at hrel
      calc st.dist v ≤ st.dist y + ↑w := hrel
        _ ≤ ↑c' + ↑w := add_le_add_right hdisty _
        _ = ↑(c' + w) := (WithTop.coe_add c' w).symm

/-- The key cut argument: a freshly popped minimal queue entry is a lower
bound on the cost of every path from the start to its node. -/
theorem pop_bound {α : Type} [LinearOrderedAddCommMonoid α] {sys : StarSystem α}
    {startP endP : String}
    (hkeys : ∀ a b w, dictGet sys.distances (a, b) = some w →
      a ∈ sys.planets.map Planet.name ∧ b ∈ sys.planets.map Planet.name ∧ a ≠ b ∧ 0 ≤ w)
    {st : DState α} (inv : DInv sys startP endP st) (d : α) (u : String)
    (hmin : ∀ x ∈ st.pq, d ≤ x.1) (hu : u ∉ st.visited) :
    ∀ (q : List String) (c : α), q.head? = some startP → q.getLast? = some u →
      pathCost sys q = some c → d ≤ c := by
  intro q c hhead hlast hcost
  have humem : u ∈ q := mem_of_getLast?_eq hlast
  obtain ⟨q1, z, q2, rfl, hq1, hz⟩ := exists_first_not_mem st.visited q ⟨u, humem, hu⟩
  obtain ⟨c1, c2, hc1, hc2, rfl⟩ := pathCost_append_mid sys q1 z q2 c hcost
  have hc2nn : 0 ≤ c2 := pathCost_nonneg sys
    (fun k w h => (hkeys k.1 k.2 w h).2.2.2) _ c2 hc2
  have hhead1 : (q1 ++ [z]).head? = some startP := by
    rw [← head_append_mid q1 z q2]
    exact hhead
  have hdistz : st.dist z ≤ ↑c1 := frontier_bound hkeys inv (q1 ++ [z]) z c1 hhead1
    (List.getLast?_concat _) (by rw [List.dropLast_concat]; exact hq1) hc1
  have hfin : st.dist z ≠ ⊤ := by
    intro hc
    rw [hc] at hdistz
    exact absurd (top_le_iff.mp hdistz) (by simp)
  obtain ⟨dz, hdz, hdzeq⟩ := inv.fresh z hz hfin
  have hd : d ≤ dz := hmin (dz, z) hdz
  have hcoe : (↑d : WithTop α) ≤ ↑c1 := le_trans (by exact_mod_cast hd)
    (le_trans (le_of_eq hdzeq.symm) hdistz)
  have hd1 : d ≤ c1 := by exact_mod_cast hcoe
  exact le_trans hd1 (le_add_of_nonneg_right hc2nn)

/-- Facts available at exit of the main loop, used by path reconstruction. -/
structure DFinal {α : Type} [LinearOrderedAddCommMonoid α] (sys : StarSystem α)
    (startP endP : String) (st : DState α) : Prop where
  dist_start : st.dist startP = 0
  end_vis : endP ∈ st.visited
  dist_end_fin : st.dist endP ≠ ⊤
  opt_end : ∀ (q : List String) (c : α), q.head? = some startP →
    q.getLast? = some endP → pathCost sys q = some c → st.dist endP ≤ ↑c
  vis_names : ∀ v ∈ st.visited, v ∈ sys.planets.map Planet.name
  vis_nodup : st.visited.Nodup
  prev_closed : ∀ v u, st.prev v = some (some u) → u ∈ st.visited ∧
    v ∈ sys.planets.map Planet.name ∧ v ≠ startP ∧
    ∃ w, dictGet sys.distances (u, v) = some w ∧ st.dist v = st.dist u + ↑w
  prev_order : ∀ v u, st.prev v = some (some u) → v ∈ st.visited →
    st.visited.indexOf v < st.visited.indexOf u
  prev_start : st.prev startP = some none
  fin_has_prev : ∀ v, v ≠ startP → st.dist v ≠ ⊤ → ∃ u, st.prev v = some (some u)

/-- Popping an already-visited node and discarding it preserves the invariant. -/
theorem dinv_skip {α : Type} [LinearOrderedAddCommMonoid α] {sys : StarSystem α}
    {startP endP : String} {st : DState α} (inv : DInv sys startP endP st)
    {d : α} {u : String} {rest : List (α × String)}
    (hpop : popMin st.pq = some ((d, u), rest)) (hu : u ∈ st.visited) :
    DInv sys startP endP { st with pq := rest } := by
  obtain ⟨hmem, hrest, hmin⟩ := popMin_spec hpop
  have hsub : ∀ x ∈ rest, x ∈ st.pq := by
    intro x hx
    rw [hrest] at hx
    exact List.mem_of_mem_erase hx
  refine ⟨inv.dist_start, inv.dist_nonneg, ?_, ?_, ?_, inv.vis_names, inv.vis_nodup,
    inv.vis_fin, ?_, ?_, inv.relaxed, inv.opt, inv.prev_closed, inv.prev_order,
    inv.prev_start, inv.fin_has_prev, inv.end_not_vis, inv.reach⟩
  · exact fun x hx => inv.pq_nonneg x (hsub x hx)
  · exact fun x hx => inv.pq_names x (hsub x hx)
  · exact fun x hx => inv.pq_dom x (hsub x hx)
  · exact fun v hv x hx => inv.vis_min v hv x (hsub x hx)
  · intro v hv hfin
    obtain ⟨dv, hdv, hdveq⟩ := inv.fresh v hv hfin
    refine ⟨dv, ?_, hdveq⟩
    rw [hrest]
    refine (List.mem_erase_of_ne ?_).mpr hdv
    intro hc
    injection hc with h1 h2
    exact hv (h2 ▸ hu)

/-- Popping the (unvisited) target and breaking yields the exit facts. -/
theorem dinv_break {α : Type} [LinearOrderedAddCommMonoid α] {sys : StarSystem α}
    {startP endP : String} {st : DState α} (inv : DInv sys startP endP st)
    (hkeys : ∀ a b w, dictGet sys.distances (a, b) = some w →
      a ∈ sys.planets.map Planet.name ∧ b ∈ sys.planets.map Planet.name ∧ a ≠ b ∧ 0 ≤ w)
    {d : α} {rest : List (α × String)}
    (hpop : popMin st.pq = some ((d, endP), rest)) (hu : endP ∉ st.visited) :
    DFinal sys startP endP { st with pq := rest, visited := endP :: st.visited } := by
  obtain ⟨hmem, hrest, hmin⟩ := popMin_spec hpop
  have hdeq : st.dist endP = ↑d := by
    obtain ⟨du, hdu, hdueq⟩ := inv.fresh endP hu (by
      intro hc
      have := inv.pq_dom _ hmem
      rw [hc] at this
      exact absurd (top_le_iff.mp this) (by simp))
    have h1 : d ≤ du := hmin _ hdu
    refine le_antisymm (inv.pq_dom _ hmem) ?_
    rw [hdueq]
    exact_mod_cast h1
  have hidx : ∀ x, x ∈ st.visited → x ≠ endP := fun x hx hc => hu (hc ▸ hx)
  refine ⟨inv.dist_start, List.mem_cons_self _ _, by rw [hdeq]; exact WithTop.coe_ne_top,
    ?_, ?_, List.nodup_cons.mpr ⟨hu, inv.vis_nodup⟩, ?_, ?_, inv.prev_start,
    inv.fin_has_prev⟩
  · intro q c hhead hlast hcost
    rw [hdeq]
    exact_mod_cast pop_bound hkeys inv d endP hmin hu q c hhead hlast hcost
  · intro v hv
    rcases List.mem_cons.mp hv with rfl | hv'
    · exact inv.pq_names _ hmem
    · exact inv.vis_names v hv'
  · intro v u hprev
    obtain ⟨huvis, hvn, hvs, hrest'⟩ := inv.prev_closed v u hprev
    exact ⟨List.mem_cons_of_mem _ huvis, hvn, hvs, hrest'⟩
  · intro v u hprev hv
    obtain ⟨huvis, -, -, -⟩ := inv.prev_closed v u hprev
    have hune : u ≠ endP := hidx u huvis
    dsimp only at hv ⊢
    rcases List.mem_cons.mp hv with rfl | hv'
    · rw [List.indexOf_cons_self, List.indexOf_cons_ne _ (Ne.symm hune)]
      omega
    · have hvne : v ≠ endP := hidx v hv'
      rw [List.indexOf_cons_ne _ (Ne.symm hvne), List.indexOf_cons_ne _ (Ne.symm hune)]
      have := inv.prev_order v u hprev hv'
      omega

/-- The relax case: popping a fresh non-target node `u`, marking it visited and
relaxing all neighbours preserves the loop invariant. -/
theorem dinv_relax {α : Type} [LinearOrderedAddCommMonoid α] {sys : StarSystem α}
    {startP endP : String} {st : DState α} (inv : DInv sys startP endP st)
    (hkeys : ∀ a b w, dictGet sys.distances (a, b) = some w →
      a ∈ sys.planets.map Planet.name ∧ b ∈ sys.planets.map Planet.name ∧ a ≠ b ∧ 0 ≤ w)
    (hcomp : ∀ a b, a ∈ sys.planets.map Planet.name → b ∈ sys.planets.map Planet.name →
      a ≠ b → ∃ w, dictGet sys.distances (a, b) = some w)
    (hend : endP ∈ sys.planets.map Planet.name)
    {d : α} {u : String} {rest : List (α × String)}
    (hpop : popMin st.pq = some ((d, u), rest)) (hu : u ∉ st.visited) (hue : u ≠ endP) :
    DInv sys startP endP
      (sys.planets.foldl (relaxStep sys u d) (⟨st.dist, st.prev, rest, u :: st.visited⟩ : DState α)) := by
  show DInv sys startP endP
    (sys.planets.foldl (relaxStep sys u d) ⟨st.dist, st.prev, rest, u :: st.visited⟩)
  obtain ⟨hmem, hrest, hmin⟩ := popMin_spec hpop
  have hrestsub : ∀ x ∈ rest, x ∈ st.pq := by
    intro x hx
    rw [hrest] at hx
    exact List.mem_of_mem_erase hx
  have hdnn : 0 ≤ d := inv.pq_nonneg _ hmem
  have hun : u ∈ sys.planets.map Planet.name := inv.pq_names _ hmem
  have hdeq : st.dist u = ↑d := by
    obtain ⟨du, hdu, hdueq⟩ := inv.fresh u hu (by
      intro hc
      have := inv.pq_dom _ hmem
      rw [hc] at this
      exact absurd (top_le_iff.mp this) (by simp))
    refine le_antisymm (inv.pq_dom _ hmem) ?_
    rw [hdueq]
    exact_mod_cast hmin _ hdu
  have hoptu := pop_bound hkeys inv d u hmin hu
  have hdich := relaxFold_dichotomy sys u d sys.planets
    (⟨st.dist, st.prev, rest, u :: st.visited⟩ : DState α)
  have hvis : (sys.planets.foldl (relaxStep sys u d) (⟨st.dist, st.prev, rest, u :: st.visited⟩ : DState α)).visited =
      u :: st.visited :=
    relaxFold_visited sys u d sys.planets _
  have hfrozu : (sys.planets.foldl (relaxStep sys u d) (⟨st.dist, st.prev, rest, u :: st.visited⟩ : DState α)).dist u = ↑d := by
    rcases hdich u with ⟨hd, -⟩ | ⟨w, -, -, -, -, -, hvu, -⟩
    · rw [hd]
      exact hdeq
    · exact absurd rfl hvu
  have hfrozen : ∀ x ∈ st.visited,
      (sys.planets.foldl (relaxStep sys u d) (⟨st.dist, st.prev, rest, u :: st.visited⟩ : DState α)).dist x = st.dist x := by
    intro x hx
    rcases hdich x with ⟨hd, -⟩ | ⟨w, hw, hd2, hlt, -, -, -, -⟩
    · exact hd
    · exfalso
      have hwnn : 0 ≤ w := (hkeys u x w hw).2.2.2
      have hxd : st.dist x ≤ ↑d := inv.vis_min x hx _ hmem
      have hdw : (↑d : WithTop α) ≤ ↑(d + w) := by
        exact_mod_cast le_add_of_nonneg_right hwnn
      rw [hd2] at hlt
      exact absurd (lt_of_lt_of_le hlt (le_trans hxd hdw)) (lt_irrefl _)
  have hdist_le : ∀ v, (sys.planets.foldl (relaxStep sys u d) (⟨st.dist, st.prev, rest, u :: st.visited⟩ : DState α)).dist v ≤
      st.dist v :=
    fun v => relaxFold_dist_le sys u d sys.planets _ v
  have hstart2 : (sys.planets.foldl (relaxStep sys u d) (⟨st.dist, st.prev, rest, u :: st.visited⟩ : DState α)).dist startP
      = 0 := by
    rcases hdich startP with ⟨hd, -⟩ | ⟨w, hw, hd2, hlt, -, -, -, -⟩
    · rw [hd]
      exact inv.dist_start
    · exfalso
      have hwnn : 0 ≤ w := (hkeys u startP w hw).2.2.2
      rw [inv.dist_start] at hlt
      have h0 : (0 : WithTop α) ≤ ↑(d + w) := by
        exact_mod_cast add_nonneg hdnn hwnn
      rw [hd2] at hlt
      exact absurd (lt_of_lt_of_le hlt h0) (lt_irrefl _)
  have hpqmem := relaxFold_pq_mem sys u d sys.planets
    (⟨st.dist, st.prev, rest, u :: st.visited⟩ : DState α)
  refine ⟨hstart2, ?_, ?_, ?_, ?_, ?_, ?_, ?_, ?_, ?_, ?_, ?_, ?_, ?_, ?_, ?_, ?_, ?_⟩
  · -- dist_nonneg
    intro v
    rcases hdich v with ⟨hd, -⟩ | ⟨w, hw, hd2, -, -, -, -, -⟩
    · rw [hd]
      exact inv.dist_nonneg v
    · rw [hd2]
      have hwnn : 0 ≤ w := (hkeys u v w hw).2.2.2
      exact_mod_cast add_nonneg hdnn hwnn
  · -- pq_nonneg
    intro x hx
    rcases hpqmem x hx with hx' | ⟨w, hw, hx1, -, -, -⟩
    · exact inv.pq_nonneg x (hrestsub x hx')
    · rw [hx1]
      exact add_nonneg hdnn (hkeys u x.2 w hw).2.2.2
  · -- pq_names
    intro x hx
    rcases hpqmem x hx with hx' | ⟨w, hw, -, hxn, -, -⟩
    · exact inv.pq_names x (hrestsub x hx')
    · exact hxn
  · -- pq_dom
    intro x hx
    rcases hpqmem x hx with hx' | ⟨w, hw, -, -, -, hcur⟩
    · exact le_trans (hdist_le x.2) (inv.pq_dom x (hrestsub x hx'))
    · exact le_of_eq hcur.symm
  · -- vis_names
    intro v hv
    rw [hvis] at hv
    rcases List.mem_cons.mp hv with rfl | hv'
    · exact hun
    · exact inv.vis_names v hv'
  · -- vis_nodup
    rw [hvis]
    exact List.nodup_cons.mpr ⟨hu, inv.vis_nodup⟩
  · -- vis_fin
    intro v hv
    rw [hvis] at hv
    rcases List.mem_cons.mp hv with rfl | hv'
    · rw [hfrozu]
      exact WithTop.coe_ne_top
    · rw [hfrozen v hv']
      exact inv.vis_fin v hv'
  · -- vis_min
    intro v hv x hx
    rw [hvis] at hv
    have hxbound : d ≤ x.1 := by
      rcases hpqmem x hx with hx' | ⟨w, hw, hx1, -, -, -⟩
      · exact hmin x (hrestsub x hx')
      · rw [hx1]
        exact le_add_of_nonneg_right (hkeys u x.2 w hw).2.2.2
    rcases List.mem_cons.mp hv with rfl | hv'
    · rw [hfrozu]
      exact_mod_cast hxbound
    · rw [hfrozen v hv']
      exact le_trans (le_trans (inv.vis_min v hv' _ hmem) (by exact_mod_cast hxbound))
        (le_refl _)
  · -- fresh
    intro v hv hfin
    rw [hvis] at hv
    have hvu : v ≠ u := fun hc => hv (hc ▸ List.mem_cons_self _ _)
    have hv' : v ∉ st.visited := fun hc => hv (List.mem_cons_of_mem _ hc)
    rcases hdich v with ⟨hd, -⟩ | ⟨w, hw, hd2, -, -, -, -, hpq⟩
    · rw [hd] at hfin ⊢
      obtain ⟨dv, hdv, hdveq⟩ := inv.fresh v hv' hfin
      refine ⟨dv, ?_, hdveq⟩
      refine relaxFold_pq_super sys u d sys.planets _ _ ?_
      show (dv, v) ∈ rest
      rw [hrest]
      refine (List.mem_erase_of_ne ?_).mpr hdv
      intro hc
      injection hc with h1 h2
      exact hvu h2
    · exact ⟨d + w, hpq, hd2⟩
  · -- relaxed
    intro y hy p hp hpy w hw
    rw [hvis] at hy
    rcases List.mem_cons.mp hy with hyu | hy'
    · rw [hyu] at hpy hw ⊢
      rw [hfrozu]
      have := relaxFold_relaxes sys u d sys.planets
        (⟨st.dist, st.prev, rest, u :: st.visited⟩ : DState α) p hp hpy w hw
      rw [WithTop.coe_add] at this
      exact this
    · rw [hfrozen y hy']
      exact le_trans (hdist_le p.name) (inv.relaxed y hy' p hp hpy w hw)
  · -- opt
    intro v hv q c hhead hlast hcost
    rw [hvis] at hv
    rcases List.mem_cons.mp hv with rfl | hv'
    · rw [hfrozu]
      exact_mod_cast hoptu q c hhead hlast hcost
    · rw [hfrozen v hv']
      exact inv.opt v hv' q c hhead hlast hcost
  · -- prev_closed
    intro v u' hprev
    rcases hdich v with ⟨hd, hp⟩ | ⟨w, hw, hd2, hlt, hp2, hvn, hvu, -⟩
    · rw [hp] at hprev
      obtain ⟨hu'vis, hvn, hvs, w, hw, hdeq'⟩ := inv.prev_closed v u' hprev
      refine ⟨by rw [hvis]; exact List.mem_cons_of_mem _ hu'vis, hvn, hvs, w, hw, ?_⟩
      rw [hd, hfrozen u' hu'vis]
      exact hdeq'
    · rw [hp2] at hprev
      injection hprev with hprev
      injection hprev with hprev
      subst hprev
      refine ⟨by rw [hvis]; exact List.mem_cons_self _ _, hvn, ?_, w, hw, ?_⟩
      · intro hc
        rw [hc] at hd2 hlt hw
        have hwnn : 0 ≤ w := (hkeys u startP w hw).2.2.2
        have h0 : (0 : WithTop α) ≤ ↑(d + w) := by
          exact_mod_cast add_nonneg hdnn hwnn
        rw [hd2] at hlt
        dsimp only at hlt
        rw [inv.dist_start] at hlt
        exact absurd (lt_of_lt_of_le hlt h0) (lt_irrefl _)
      · rw [hd2, hfrozu, ← WithTop.coe_add]
  · -- prev_order
    intro v u' hprev hv
    rw [hvis] at hv ⊢
    have hvdist := hfrozen
    rcases List.mem_cons.mp hv with rfl | hv'
    · -- v = u : its prev was not changed (a change targets nodes ≠ u)
      rcases hdich v with ⟨-, hp⟩ | ⟨-, -, -, -, -, -, hvu, -⟩
      · rw [hp] at hprev
        obtain ⟨hu'vis, -, -, -⟩ := inv.prev_closed v u' hprev
        have hu'ne : u' ≠ v := fun hc => hu (hc ▸ hu'vis)
        rw [List.indexOf_cons_self, List.indexOf_cons_ne _ (Ne.symm hu'ne)]
        omega
      · exact absurd rfl hvu
    · -- v previously visited: frozen dist, so prev unchanged
      rcases hdich v with ⟨-, hp⟩ | ⟨w, hw, hd2, hlt, -, -, -, -⟩
      · rw [hp] at hprev
        obtain ⟨hu'vis, -, -, -⟩ := inv.prev_closed v u' hprev
        have hvne : v ≠ u := fun hc => hu (hc ▸ hv')
        have hu'ne : u' ≠ u := fun hc => hu (hc ▸ hu'vis)
        rw [List.indexOf_cons_ne _ (Ne.symm hvne), List.indexOf_cons_ne _ (Ne.symm hu'ne)]
        have := inv.prev_order v u' hprev hv'
        omega
      · exfalso
        have hwnn : 0 ≤ w := (hkeys u v w hw).2.2.2
        have hxd : st.dist v ≤ ↑d := inv.vis_min v hv' _ hmem
        have hdw : (↑d : WithTop α) ≤ ↑(d + w) := by
          exact_mod_cast le_add_of_nonneg_right hwnn
        rw [hd2] at hlt
        exact absurd (lt_of_lt_of_le hlt (le_trans hxd hdw)) (lt_irrefl _)
  · -- prev_start
    rcases hdich startP with ⟨-, hp⟩ | ⟨w, hw, hd2, hlt, -, -, -, -⟩
    · rw [hp]
      exact inv.prev_start
    · exfalso
      have hwnn : 0 ≤ w := (hkeys u startP w hw).2.2.2
      have h0 : (0 : WithTop α) ≤ ↑(d + w) := by
        exact_mod_cast add_nonneg hdnn hwnn
      rw [hd2] at hlt
      dsimp only at hlt
      rw [inv.dist_start] at hlt
      exact absurd (lt_of_lt_of_le hlt h0) (lt_irrefl _)
  · -- fin_has_prev
    intro v hvs hfin
    rcases hdich v with ⟨hd, hp⟩ | ⟨-, -, -, -, hp2, -, -, -⟩
    · rw [hd] at hfin
      rw [hp]
      exact inv.fin_has_prev v hvs hfin
    · exact ⟨u, hp2⟩
  · -- end_not_vis
    rw [hvis]
    intro hc
    rcases List.mem_cons.mp hc with hc' | hc'
    · exact hue hc'.symm
    · exact inv.end_not_vis hc'
  · -- reach
    by_cases hus : u = startP
    · left
      subst hus
      obtain ⟨w, hw⟩ := hcomp u endP hun hend hue
      obtain ⟨p, hp, hpname⟩ := List.mem_map.mp hend
      have := relaxFold_relaxes sys u d sys.planets
        (⟨st.dist, st.prev, rest, u :: st.visited⟩ : DState α) p hp
        (by rw [hpname]; exact fun hc => hue hc.symm) w (by rw [hpname]; exact hw)
      rw [hpname] at this
      intro hc
      rw [hc] at this
      exact absurd (top_le_iff.mp this) WithTop.coe_ne_top
    · rcases inv.reach with hfin | hsvis
      · left
        intro hc
        have := hdist_le endP
        rw [hc] at this
        exact hfin (top_le_iff.mp this)
      · right
        rw [hvis]
        intro hc
        rcases List.mem_cons.mp hc with hc' | hc'
        · exact hus hc'.symm
        · exact hsvis hc'

/-- Master lemma for the main loop: starting from any state satisfying the
invariant, whenever the fuelled loop returns a state at all, that state
satisfies the exit facts (in particular the target was popped and settled:
under the invariant the queue can never empty out before the target). -/
theorem loop_final {α : Type} [LinearOrderedAddCommMonoid α] {sys : StarSystem α}
    {startP endP : String}
    (hkeys : ∀ a b w, dictGet sys.distances (a, b) = some w →
      a ∈ sys.planets.map Planet.name ∧ b ∈ sys.planets.map Planet.name ∧ a ≠ b ∧ 0 ≤ w)
    (hcomp : ∀ a b, a ∈ sys.planets.map Planet.name → b ∈ sys.planets.map Planet.name →
      a ≠ b → ∃ w, dictGet sys.distances (a, b) = some w)
    (hend : endP ∈ sys.planets.map Planet.name) :
    ∀ (fuel : ℕ) (st : DState α), DInv sys startP endP st →
      ∀ stf, dijkstraLoop sys endP fuel st = some stf → DFinal sys startP endP stf := by
  intro fuel
  induction fuel with
  | zero =>
    intro st inv stf h
    simp [dijkstraLoop] at h
  | succ n ih =>
    intro st inv stf h
    rw [dijkstraLoop] at h
    cases hpop : popMin st.pq with
    | none =>
      exfalso
      have hpq : st.pq = [] := (popMin_eq_none_iff _).mp hpop
      rcases inv.reach with hfin | hs
      · obtain ⟨dv, hdv, -⟩ := inv.fresh endP inv.end_not_vis hfin
        rw [hpq] at hdv
        exact absurd hdv (List.not_mem_nil _)
      · have hsfin : st.dist startP ≠ ⊤ := by
          rw [inv.dist_start]
          simp
        obtain ⟨dv, hdv, -⟩ := inv.fresh startP hs hsfin
        rw [hpq] at hdv
        exact absurd hdv (List.not_mem_nil _)
    | some p =>
      obtain ⟨⟨d, u⟩, rest⟩ := p
      rw [hpop] at h
      dsimp only at h
      by_cases hvis : u ∈ st.visited
      · rw [if_pos hvis] at h
        exact ih { st with pq := rest } (dinv_skip inv hpop hvis) stf h
      · rw [if_neg hvis] at h
        by_cases hue : u = endP
        · rw [hue] at h hpop hvis
          rw [if_pos rfl] at h
          injection h with h
          rw [← h]
          exact dinv_break inv hkeys hpop hvis
        · rw [if_neg hue] at h
          exact ih _ (dinv_relax inv hkeys hcomp hend hpop hvis hue) stf h

/-- Termination measure for the main loop: queue length plus a weighted count
of the unvisited planet names.  A skip iteration shrinks the queue; a relax
iteration visits a new planet while adding at most `sys.planets.length` queue
entries, so the weighted measure strictly decreases either way. -/
def dMeasure {α : Type} [LinearOrderedAddCommMonoid α] (sys : StarSystem α)
    (st : DState α) : ℕ :=
  st.pq.length +
    (sys.planets.length + 1) *
      ((sys.planets.map Planet.name).toFinset \ st.visited.toFinset).card

/-- The fuelled loop does not run out of fuel above the measure: it returns. -/
theorem loop_total {α : Type} [LinearOrderedAddCommMonoid α] {sys : StarSystem α}
    {startP endP : String}
    (hkeys : ∀ a b w, dictGet sys.distances (a, b) = some w →
      a ∈ sys.planets.map Planet.name ∧ b ∈ sys.planets.map Planet.name ∧ a ≠ b ∧ 0 ≤ w)
    (hcomp : ∀ a b, a ∈ sys.planets.map Planet.name → b ∈ sys.planets.map Planet.name →
      a ≠ b → ∃ w, dictGet sys.distances (a, b) = some w)
    (hend : endP ∈ sys.planets.map Planet.name) :
    ∀ (fuel : ℕ) (st : DState α), DInv sys startP endP st →
      dMeasure sys st < fuel → (dijkstraLoop sys endP fuel st).isSome := by
  intro fuel
  induction fuel with
  | zero =>
    intro st inv hm
    exact absurd hm (Nat.not_lt_zero _)
  | succ n ih =>
    intro st inv hm
    rw [dijkstraLoop]
    cases hpop : popMin st.pq with
    | none => simp
    | some p =>
      obtain ⟨⟨d, u⟩, rest⟩ := p
      obtain ⟨hmem, hrest, -⟩ := popMin_spec hpop
      have hpos : 0 < st.pq.length := List.length_pos.mpr (List.ne_nil_of_mem hmem)
      have hlen : rest.length = st.pq.length - 1 := by
        rw [hrest]
        exact List.length_erase_of_mem hmem
      dsimp only
      by_cases hvis : u ∈ st.visited
      · rw [if_pos hvis]
        refine ih { st with pq := rest } (dinv_skip inv hpop hvis) ?_
        unfold dMeasure at hm ⊢
        dsimp only at hm ⊢
        set K := (sys.planets.length + 1) *
          ((sys.planets.map Planet.name).toFinset \ st.visited.toFinset).card with hK
        omega
      · rw [if_neg hvis]
        by_cases hue : u = endP
        · rw [if_pos hue]
          simp
        · rw [if_neg hue]
          refine ih _ (dinv_relax inv hkeys hcomp hend hpop hvis hue) ?_
          have hu_names : u ∈ sys.planets.map Planet.name := inv.pq_names _ hmem
          have hu_mem : u ∈ (sys.planets.map Planet.name).toFinset \ st.visited.toFinset := by
            rw [Finset.mem_sdiff]
            exact ⟨List.mem_toFinset.mpr hu_names,
              fun hc => hvis (List.mem_toFinset.mp hc)⟩
          have hcard : ((sys.planets.map Planet.name).toFinset \
              (u :: st.visited).toFinset).card
              = ((sys.planets.map Planet.name).toFinset \ st.visited.toFinset).card - 1 := by
            rw [List.toFinset_cons, Finset.sdiff_insert, Finset.card_erase_of_mem hu_mem]
          have hcpos : 0 < ((sys.planets.map Planet.name).toFinset \
              st.visited.toFinset).card :=
            Finset.card_pos.mpr ⟨u, hu_mem⟩
          have hpql := relaxFold_pq_len sys u d sys.planets
            (⟨st.dist, st.prev, rest, u :: st.visited⟩ : DState α)
          have hvis2 := relaxFold_visited sys u d sys.planets
            (⟨st.dist, st.prev, rest, u :: st.visited⟩ : DState α)
          show dMeasure sys (sys.planets.foldl (relaxStep sys u d)
            (⟨st.dist, st.prev, rest, u :: st.visited⟩ : DState α)) < n
          unfold dMeasure at hm ⊢
          rw [hvis2, hcard]
          dsimp only at hm hpql ⊢
          have hC : ((sys.planets.map Planet.name).toFinset \ st.visited.toFinset).card
              = (((sys.planets.map Planet.name).toFinset \ st.visited.toFinset).card - 1)
                + 1 := (Nat.succ_pred_eq_of_pos hcpos).symm
          rw [hC] at hm
          rw [Nat.mul_add, Nat.mul_one] at hm
          set K := (sys.planets.length + 1) *
            (((sys.planets.map Planet.name).toFinset \ st.visited.toFinset).card - 1) with hK
          omega

/-- Extending a costed path by one edge. -/
theorem pathCost_concat_intro {α : Type} [LinearOrderedAddCommMonoid α] (sys : StarSystem α) :
    ∀ (q : List String) (y v : String) (c w : α), q.getLast? = some y →
      pathCost sys q = some c → dictGet sys.distances (y, v) = some w →
      pathCost sys (q ++ [v]) = some (c + w) := by
  intro q
  induction q with
  | nil =>
    intro y v c w hy hc hw
    simp at hy
  | cons a t ih =>
    intro y v c w hy hc hw
    cases t with
    | nil =>
      rw [List.getLast?_singleton] at hy
      injection hy with hy
      rw [← hy] at hw
      simp only [pathCost, Option.some.injEq] at hc
      show pathCost sys (a :: v :: []) = some (c + w)
      rw [pathCost_cons_cons]
      refine ⟨w, 0, hw, rfl, ?_⟩
      rw [← hc, zero_add, add_zero]
    | cons b t' =>
      rw [List.getLast?_cons_cons] at hy
      obtain ⟨w1, c1, hab, hbc, hceq⟩ := (pathCost_cons_cons sys a b t' c).mp hc
      have hrec := ih y v c1 w hy hbc hw
      show pathCost sys (a :: b :: (t' ++ [v])) = some (c + w)
      rw [pathCost_cons_cons]
      refine ⟨w1, c1 + w, hab, ?_, ?_⟩
      · have hx : (b :: t') ++ [v] = b :: (t' ++ [v]) := by simp
        rw [← hx]
        exact hrec
      · rw [hceq, add_assoc]

/-- From the exit facts, the predecessor walk from any settled node reaches the
start, and the collected chain (read back to front) is a path from the start
whose cost equals the node's final distance. -/
theorem walk_chain {α : Type} [LinearOrderedAddCommMonoid α] {sys : StarSystem α}
    {startP endP : String} {st : DState α} (hfin : DFinal sys startP endP st) :
    ∀ (k : ℕ) (v : String), v ∈ st.visited → st.dist v ≠ ⊤ →
      st.visited.length - st.visited.indexOf v ≤ k →
      ∃ (chain : List String) (c : α),
        chain.length ≤ k ∧
        (∀ (fuel : ℕ) (path : List String), chain.length ≤ fuel →
          walk st.prev (some v) fuel path = some (.ok (path ++ chain))) ∧
        chain.head? = some v ∧
        pathCost sys chain.reverse = some c ∧
        chain.reverse.head? = some startP ∧
        st.dist v = ↑c := by
  intro k
  induction k with
  | zero =>
    intro v hv hfv hk
    exfalso
    have := List.indexOf_lt_length.mpr hv
    omega
  | succ k ih =>
    intro v hv hfv hk
    by_cases hvs : v = startP
    · subst hvs
      refine ⟨[v], 0, by simp, ?_, rfl, ?_, by simp, ?_⟩
      · intro fuel path hfuel
        cases fuel with
        | zero => simp at hfuel
        | succ f =>
          simp only [walk, hfin.prev_start]
      · simp only [List.reverse_singleton]
        rfl
      · rw [hfin.dist_start]
        exact WithTop.coe_zero.symm
    · obtain ⟨u, hprev⟩ := hfin.fin_has_prev v hvs hfv
      obtain ⟨huvis, -, -, w, hw, hdeq⟩ := hfin.prev_closed v u hprev
      have hufin : st.dist u ≠ ⊤ := by
        intro hc
        rw [hc, top_add] at hdeq
        exact hfv hdeq
      have hio := hfin.prev_order v u hprev hv
      have hul : st.visited.indexOf u < st.visited.length := List.indexOf_lt_length.mpr huvis
      have hku : st.visited.length - st.visited.indexOf u ≤ k := by omega
      obtain ⟨chain, cu, hlenu, hwalku, hheadu, hcostu, hstartu, hdistu⟩ :=
        ih u huvis hufin hku
      refine ⟨v :: chain, cu + w, ?_, ?_, rfl, ?_, ?_, ?_⟩
      · simp only [List.length_cons]
        omega
      · intro fuel path hfuel
        simp only [List.length_cons] at hfuel
        cases fuel with
        | zero => omega
        | succ f =>
          rw [walk, hprev]
          have hf : chain.length ≤ f := by omega
          show walk st.prev (some u) f (path ++ [v]) = some (Except.ok (path ++ v :: chain))
          rw [hwalku f (path ++ [v]) hf, List.append_cons path v chain]
      · rw [List.reverse_cons]
        refine pathCost_concat_intro sys chain.reverse u v cu w ?_ hcostu hw
        rw [List.getLast?_reverse]
        exact hheadu
      · rw [List.reverse_cons]
        cases hrev : chain.reverse with
        | nil =>
          rw [hrev] at hstartu
          simp at hstartu
        | cons a t =>
          rw [hrev] at hstartu
          simpa using hstartu
      · rw [hdeq, hdistu, ← WithTop.coe_add]

/-- The initial solver state satisfies the loop invariant. -/
theorem dinv_init {α : Type} [LinearOrderedAddCommMonoid α] (sys : StarSystem α)
    (startP endP : String)
    (hstart : startP ∈ sys.planets.map Planet.name) :
    DInv sys startP endP
      (⟨Function.update (fun _ => (⊤ : WithTop α)) startP 0,
        fun s => if s ∈ sys.planets.map Planet.name then some none else none,
        [((0 : α), startP)], []⟩ : DState α) := by
  refine ⟨?_, ?_, ?_, ?_, ?_, ?_, ?_, ?_, ?_, ?_, ?_, ?_, ?_, ?_, ?_, ?_, ?_, ?_⟩
  · show Function.update (fun _ => (⊤ : WithTop α)) startP 0 startP = 0
    rw [Function.update_same]
  · intro v
    by_cases hv : v = startP
    · rw [hv]
      dsimp only
      rw [Function.update_same]
    · dsimp only
      rw [Function.update_noteq hv]
      exact le_top
  · intro x hx
    rcases List.mem_singleton.mp hx with rfl
    exact le_refl _
  · intro x hx
    rcases List.mem_singleton.mp hx with rfl
    exact hstart
  · intro x hx
    rcases List.mem_singleton.mp hx with rfl
    dsimp only
    rw [Function.update_same]
    exact le_of_eq WithTop.coe_zero.symm
  · intro v hv
    exact absurd hv (List.not_mem_nil _)
  · exact List.nodup_nil
  · intro v hv
    exact absurd hv (List.not_mem_nil _)
  · intro v hv
    exact absurd hv (List.not_mem_nil _)
  · intro v hv hfin
    by_cases hvs : v = startP
    · refine ⟨0, ?_, ?_⟩
      · rw [hvs]
        exact List.mem_singleton.mpr rfl
      · rw [hvs]
        dsimp only
        rw [Function.update_same]
        exact WithTop.coe_zero.symm
    · exfalso
      dsimp only at hfin
      rw [Function.update_noteq hvs] at hfin
      exact hfin rfl
  · intro y hy
    exact absurd hy (List.not_mem_nil _)
  · intro v hv
    exact absurd hv (List.not_mem_nil _)
  · intro v u hprev
    dsimp only at hprev
    by_cases hv : v ∈ sys.planets.map Planet.name
    · rw [if_pos hv] at hprev
      injection hprev with hprev
      exact absurd hprev (by simp)
    · rw [if_neg hv] at hprev
      exact absurd hprev (by simp)
  · intro v u hprev hv
    exact absurd hv (List.not_mem_nil _)
  · dsimp only
    rw [if_pos hstart]
  · intro v hvs hfin
    exfalso
    dsimp only at hfin
    rw [Function.update_noteq hvs] at hfin
    exact hfin rfl
  · exact List.not_mem_nil _
  · exact Or.inr (List.not_mem_nil _)

/-- Full functional correctness of `find_shortest_path` on a system whose
distance dict is a complete symmetric-key cache with non-negative weights over
its planet names: given enough fuel it returns a minimum-cost path from start
to end together with that path's cost. -/
theorem dijkstra_correct {α : Type} [LinearOrderedAddCommMonoid α] {sys : StarSystem α}
    {startP endP : String}
    (hkeys : ∀ a b w, dictGet sys.distances (a, b) = some w →
      a ∈ sys.planets.map Planet.name ∧ b ∈ sys.planets.map Planet.name ∧ a ≠ b ∧ 0 ≤ w)
    (hcomp : ∀ a b, a ∈ sys.planets.map Planet.name → b ∈ sys.planets.map Planet.name →
      a ≠ b → ∃ w, dictGet sys.distances (a, b) = some w)
    (hstart : startP ∈ sys.planets.map Planet.name)
    (hend : endP ∈ sys.planets.map Planet.name)
    (fuel : ℕ)
    (hfuel : (sys.planets.length + 1) * (sys.planets.length + 1) < fuel) :
    ∃ (path : List String) (c : α),
      find_shortest_path sys startP endP fuel = some (.ok (path, ↑c)) ∧
      path.head? = some startP ∧ path.getLast? = some endP ∧
      pathCost sys path = some c ∧
      (∀ (q : List String) (c' : α), q.head? = some startP → q.getLast? = some endP →
        pathCost sys q = some c' → c ≤ c') := by
  have hinv := dinv_init sys startP endP hstart
  have hmb : dMeasure sys
      (⟨Function.update (fun _ => (⊤ : WithTop α)) startP 0,
        fun s => if s ∈ sys.planets.map Planet.name then some none else none,
        [((0 : α), startP)], []⟩ : DState α) < fuel := by
    unfold dMeasure
    dsimp only
    rw [List.toFinset_nil, Finset.sdiff_empty, List.length_singleton]
    have hcard : (sys.planets.map Planet.name).toFinset.card ≤ sys.planets.length := by
      have h1 := (sys.planets.map Planet.name).toFinset_card_le
      rw [List.length_map] at h1
      exact h1
    have hle : (sys.planets.length + 1) * (sys.planets.map Planet.name).toFinset.card ≤
        (sys.planets.length + 1) * sys.planets.length :=
      Nat.mul_le_mul_left _ hcard
    have hmul : (sys.planets.length + 1) * (sys.planets.length + 1) =
        (sys.planets.length + 1) * sys.planets.length + (sys.planets.length + 1) := by ring
    omega
  have htot := loop_total hkeys hcomp hend fuel _ hinv hmb
  obtain ⟨stf, hloop⟩ := Option.isSome_iff_exists.mp htot
  have hfin := loop_final hkeys hcomp hend fuel _ hinv stf hloop
  obtain ⟨chain, c, hlen, hwalk, hhead, hcost, hrevhead, hdist⟩ :=
    walk_chain hfin stf.visited.length endP hfin.end_vis hfin.dist_end_fin (by omega)
  have hvlen : stf.visited.length ≤ (sys.planets.map Planet.name).length := by
    have h1 : stf.visited.toFinset.card = stf.visited.length :=
      List.toFinset_card_of_nodup hfin.vis_nodup
    have h2 : stf.visited.toFinset ⊆ (sys.planets.map Planet.name).toFinset := by
      intro x hx
      exact List.mem_toFinset.mpr (hfin.vis_names x (List.mem_toFinset.mp hx))
    have h3 := Finset.card_le_card h2
    have h4 := (sys.planets.map Planet.name).toFinset_card_le
    omega
  refine ⟨chain.reverse, c, ?_, hrevhead, ?_, hcost, ?_⟩
  · rw [find_shortest_path]
    rw [hloop]
    dsimp only
    rw [hwalk ((sys.planets.map Planet.name).length + 1) [] (by omega)]
    dsimp only
    rw [List.nil_append, hdist]
  · rw [List.getLast?_reverse]
    exact hhead
  · intro q c' hh hl hc
    have := hfin.opt_end q c' hh hl hc
    rw [hdist] at this
    exact_mod_cast this

/-- The main loop never writes a predecessor entry for a string that is not a
planet name: relaxation only targets `planet.name` for planets of the system. -/
theorem loop_prev_frame {α : Type} [LinearOrderedAddCommMonoid α] (sys : StarSystem α)
    (endP v : String) (hv : v ∉ sys.planets.map Planet.name) :
    ∀ (fuel : ℕ) (st stf : DState α),
      dijkstraLoop sys endP fuel st = some stf → stf.prev v = st.prev v := by
  intro fuel
  induction fuel with
  | zero =>
    intro st stf h
    simp [dijkstraLoop] at h
  | succ n ih =>
    intro st stf h
    rw [dijkstraLoop] at h
    cases hpop : popMin st.pq with
    | none =>
      rw [hpop] at h
      dsimp only at h
      injection h with h
      rw [← h]
    | some p =>
      obtain ⟨⟨d, u⟩, rest⟩ := p
      rw [hpop] at h
      dsimp only at h
      by_cases hvis : u ∈ st.visited
      · rw [if_pos hvis] at h
        exact ih { st with pq := rest } stf h
      · rw [if_neg hvis] at h
        by_cases hue : u = endP
        · rw [if_pos hue] at h
          injection h with h
          rw [← h]
        · rw [if_neg hue] at h
          have hrec := ih _ _ h
          rw [hrec]
          rcases relaxFold_dichotomy sys u d sys.planets
            (⟨st.dist, st.prev, rest, u :: st.visited⟩ : DState α) v with
            ⟨-, hp⟩ | ⟨w, hw, -, -, -, hvn, -, -⟩
          · exact hp
          · exact absurd hvn hv

/-- Helper: a missing `endName` is only detected after the whole Dijkstra loop
has run, when the reconstruction loop's first dict lookup `previous[end]`
raises `KeyError` — so whenever the call returns a result at all, that result
is the `KeyError`, not a precondition violation signalled before the
algorithm. -/
theorem missing_end_keyerror {α : Type} [LinearOrderedAddCommMonoid α]
    (sys : StarSystem α) (startP endP : String)
    (hend : endP ∉ sys.planets.map Planet.name) (fuel : ℕ)
    (r : Except PyErr (List String × WithTop α))
    (h : find_shortest_path sys startP endP fuel = some r) :
    r = .error .keyError := by
  rw [find_shortest_path] at h
  cases hloop : dijkstraLoop sys endP fuel
      (⟨Function.update (fun _ => (⊤ : WithTop α)) startP 0,
        fun s => if s ∈ sys.planets.map Planet.name then some none else none,
        [((0 : α), startP)], []⟩ : DState α) with
  | none =>
    rw [hloop] at h
    exact absurd h (by simp)
  | some stf =>
    rw [hloop] at h
    dsimp only at h
    have hprev : stf.prev endP = none := by
      rw [loop_prev_frame sys endP endP hend fuel _ stf hloop]
      dsimp only
      rw [if_neg hend]
    rw [walk, hprev] at h
    dsimp only at h
    injection h with h
    exact h.symm

/-- C1: for every System produced by `generate_star_system` and every two
distinct planet names `startP`, `endP` present in it, `find_shortest_path`
(with enough fuel for its unbounded Python loop) returns a node sequence that
starts at `startP`, ends at `endP`, whose cost recomputed from the System's
distance dict equals the reported total distance, and whose cost is minimal
among all paths between the two names in the complete graph. -/
theorem c1_generated_shortest_path_correct (stream : ℕ → String) (coords : ℕ → ℝ)
    (g : GalaxyGenerator) (idx cIdx : ℕ) (np : ℤ) (genFuel : ℕ)
    (out : StarSystem ℝ × GalaxyGenerator × ℕ × ℕ)
    (hgen : generate_star_system stream coords g idx cIdx np genFuel = some out)
    (startP endP : String)
    (hstart : startP ∈ out.1.planets.map Planet.name)
    (hend : endP ∈ out.1.planets.map Planet.name)
    (hne : startP ≠ endP) (fuel : ℕ)
    (hfuel : (out.1.planets.length + 1) * (out.1.planets.length + 1) < fuel) :
    ∃ (path : List String) (c : ℝ),
      find_shortest_path out.1 startP endP fuel = some (.ok (path, (↑c : WithTop ℝ))) ∧
      path.head? = some startP ∧ path.getLast? = some endP ∧
      pathCost out.1 path = some c ∧
      (∀ (q : List String) (c' : ℝ), q.head? = some startP → q.getLast? = some endP →
        pathCost out.1 q = some c' → c ≤ c') := by
  obtain ⟨-, hnd, -, hbd⟩ :=
    generate_star_system_spec stream coords g idx cIdx np genFuel out hgen
  have hdeq : out.1.distances = allPairsFlat out.1.planets := by
    rw [hbd, buildDistances_eq out.1.planets hnd [] (by intro kv hkv; cases hkv)]
    rfl
  have hkeys : ∀ a b w, dictGet out.1.distances (a, b) = some w →
      a ∈ out.1.planets.map Planet.name ∧ b ∈ out.1.planets.map Planet.name ∧
      a ≠ b ∧ 0 ≤ w := by
    intro a b w hw
    rw [hdeq] at hw
    have hmem := dictGet_some_mem _ _ _ hw
    obtain ⟨p, q, hsub, hcase⟩ := mem_allPairsFlat.mp hmem
    have hpmem : p ∈ out.1.planets := hsub.subset (List.mem_cons_self _ _)
    have hqmem : q ∈ out.1.planets :=
      hsub.subset (List.mem_cons_of_mem _ (List.mem_cons_self _ _))
    have hpq : p.name ≠ q.name := sublist_name_ne hnd hsub
    rcases hcase with hc | hc
    · simp only [Prod.mk.injEq] at hc
      obtain ⟨⟨ha, hb⟩, hv⟩ := hc
      subst ha
      subst hb
      subst hv
      exact ⟨List.mem_map_of_mem _ hpmem, List.mem_map_of_mem _ hqmem, hpq,
        calculate_distance_nonneg p q⟩
    · simp only [Prod.mk.injEq] at hc
      obtain ⟨⟨ha, hb⟩, hv⟩ := hc
      subst ha
      subst hb
      subst hv
      exact ⟨List.mem_map_of_mem _ hqmem, List.mem_map_of_mem _ hpmem, Ne.symm hpq,
        calculate_distance_nonneg p q⟩
  have hcomp : ∀ a b, a ∈ out.1.planets.map Planet.name →
      b ∈ out.1.planets.map Planet.name → a ≠ b →
      ∃ w, dictGet out.1.distances (a, b) = some w := by
    intro a b ha hb hab
    obtain ⟨p, hp, hpn⟩ := List.mem_map.mp ha
    obtain ⟨q, hq, hqn⟩ := List.mem_map.mp hb
    have hpq : p ≠ q := fun hc => hab (by rw [← hpn, ← hqn, hc])
    rcases mem_pair_sublist hpq hp hq with hsub | hsub
    · refine ⟨calculate_distance p q, ?_⟩
      rw [hdeq, ← hpn, ← hqn]
      exact (dictGet_allPairsFlat out.1.planets hnd p q hsub).1
    · refine ⟨calculate_distance q p, ?_⟩
      rw [hdeq, ← hpn, ← hqn]
      exact (dictGet_allPairsFlat out.1.planets hnd q p hsub).2
  exact dijkstra_correct hkeys hcomp hstart hend fuel hfuel

theorem c1_witness :
    ∃ (path : List String) (c : ℝ),
      find_shortest_path sampleSys "PLT-1" "PLT-2" 10 = some (.ok (path, (↑c : WithTop ℝ))) ∧
      path.head? = some "PLT-1" ∧ path.getLast? = some "PLT-2" ∧
      pathCost sampleSys path = some c ∧
      (∀ (q : List String) (c' : ℝ), q.head? = some "PLT-1" → q.getLast? = some "PLT-2" →
        pathCost sampleSys q = some c' → c ≤ c') := by
  have hgen : generate_star_system (fun n => toString n) (fun _ => 0) ⟨[], []⟩ 0 0 2 1 =
      some (sampleSys, ⟨[], ["PLT-2", "PLT-1", "SYS-0"]⟩, 3, 4) := rfl
  exact c1_generated_shortest_path_correct (fun n => toString n) (fun _ => 0)
    ⟨[], []⟩ 0 0 2 1 (sampleSys, ⟨[], ["PLT-2", "PLT-1", "SYS-0"]⟩, 3, 4) hgen
    "PLT-1" "PLT-2" (by decide) (by decide) (by decide) 10 (by decide)

/-- The head of an append is the head of a non-empty left part. -/
theorem head_append_left {β : Type*} (l1 l2 : List β) {a : β} (h : l1.head? = some a) :
    (l1 ++ l2).head? = some a := by
  cases l1 with
  | nil => simp at h
  | cons x t => simpa using h

/-- When no dict-costed path leads from `s` to the target `e`, the main loop —
whose queue only ever holds nodes that a costed path from `s` reaches — runs to
queue exhaustion, never touches `e`'s distance or predecessor entries, and
terminates within the measure. -/
theorem loop_unreach {α : Type} [LinearOrderedAddCommMonoid α] {sys : StarSystem α}
    {s e : String}
    (hnp : ¬ ∃ (q : List String) (c : α), q.head? = some s ∧ q.getLast? = some e ∧
      pathCost sys q = some c) :
    ∀ (fuel : ℕ) (st : DState α),
      (∀ x ∈ st.pq, x.2 ∈ sys.planets.map Planet.name) →
      (∀ x ∈ st.pq, ∃ (q : List String) (c : α), q.head? = some s ∧
        q.getLast? = some x.2 ∧ pathCost sys q = some c) →
      st.prev e = some none → st.dist e = ⊤ →
      dMeasure sys st < fuel →
      ∃ stf, dijkstraLoop sys e fuel st = some stf ∧
        stf.prev e = some none ∧ stf.dist e = ⊤ := by
  intro fuel
  induction fuel with
  | zero =>
    intro st hnames hpaths hpreve hdiste hm
    exact absurd hm (Nat.not_lt_zero _)
  | succ n ih =>
    intro st hnames hpaths hpreve hdiste hm
    rw [dijkstraLoop]
    cases hpop : popMin st.pq with
    | none =>
      refine ⟨st, ?_, hpreve, hdiste⟩
      rfl
    | some p =>
      obtain ⟨⟨d, u⟩, rest⟩ := p
      obtain ⟨hmem, hrest, -⟩ := popMin_spec hpop
      have hrestsub : ∀ x ∈ rest, x ∈ st.pq := by
        intro x hx
        rw [hrest] at hx
        exact List.mem_of_mem_erase hx
      have hpos : 0 < st.pq.length := List.length_pos.mpr (List.ne_nil_of_mem hmem)
      have hlen : rest.length = st.pq.length - 1 := by
        rw [hrest]
        exact List.length_erase_of_mem hmem
      dsimp only
      by_cases hvis : u ∈ st.visited
      · rw [if_pos hvis]
        have hmeas : dMeasure sys { st with pq := rest } < n := by
          unfold dMeasure at hm ⊢
          dsimp only at hm ⊢
          set K := (sys.planets.length + 1) *
            ((sys.planets.map Planet.name).toFinset \ st.visited.toFinset).card with hK
          omega
        obtain ⟨stf, hrec, hp, hd⟩ := ih { st with pq := rest }
          (fun x hx => hnames x (hrestsub x hx))
          (fun x hx => hpaths x (hrestsub x hx)) hpreve hdiste hmeas
        exact ⟨stf, hrec, hp, hd⟩
      · rw [if_neg hvis]
        by_cases hue : u = e
        · exfalso
          obtain ⟨q, c, hh, hl, hc⟩ := hpaths (d, u) hmem
          exact hnp ⟨q, c, hh, hue ▸ hl, hc⟩
        · rw [if_neg hue]
          have hu_names : u ∈ sys.planets.map Planet.name := hnames (d, u) hmem
          have hupath := hpaths (d, u) hmem
          have hnames2 : ∀ x ∈ (sys.planets.foldl (relaxStep sys u d)
              (⟨st.dist, st.prev, rest, u :: st.visited⟩ : DState α)).pq,
              x.2 ∈ sys.planets.map Planet.name := by
            intro x hx
            rcases relaxFold_pq_mem sys u d sys.planets
              (⟨st.dist, st.prev, rest, u :: st.visited⟩ : DState α) x hx with
              hx' | ⟨w, hw, -, hxn, -, -⟩
            · exact hnames x (hrestsub x hx')
            · exact hxn
          have hpaths2 : ∀ x ∈ (sys.planets.foldl (relaxStep sys u d)
              (⟨st.dist, st.prev, rest, u :: st.visited⟩ : DState α)).pq,
              ∃ (q : List String) (c : α), q.head? = some s ∧
                q.getLast? = some x.2 ∧ pathCost sys q = some c := by
            intro x hx
            rcases relaxFold_pq_mem sys u d sys.planets
              (⟨st.dist, st.prev, rest, u :: st.visited⟩ : DState α) x hx with
              hx' | ⟨w, hw, -, -, -, -⟩
            · exact hpaths x (hrestsub x hx')
            · obtain ⟨q, c, hh, hl, hc⟩ := hupath
              exact ⟨q ++ [x.2], c + w, head_append_left q [x.2] hh,
                List.getLast?_concat q, pathCost_concat_intro sys q u x.2 c w hl hc hw⟩
          have hsame : (sys.planets.foldl (relaxStep sys u d)
              (⟨st.dist, st.prev, rest, u :: st.visited⟩ : DState α)).dist e = st.dist e ∧
              (sys.planets.foldl (relaxStep sys u d)
              (⟨st.dist, st.prev, rest, u :: st.visited⟩ : DState α)).prev e = st.prev e := by
            rcases relaxFold_dichotomy sys u d sys.planets
              (⟨st.dist, st.prev, rest, u :: st.visited⟩ : DState α) e with
              ⟨hd, hp⟩ | ⟨w, hw, -, -, -, -, -, -⟩
            · exact ⟨hd, hp⟩
            · exfalso
              obtain ⟨q, c, hh, hl, hc⟩ := hupath
              exact hnp ⟨q ++ [e], c + w, head_append_left q [e] hh,
                List.getLast?_concat q, pathCost_concat_intro sys q u e c w hl hc hw⟩
          have hu_mem : u ∈ (sys.planets.map Planet.name).toFinset \ st.visited.toFinset := by
            rw [Finset.mem_sdiff]
            exact ⟨List.mem_toFinset.mpr hu_names,
              fun hc => hvis (List.mem_toFinset.mp hc)⟩
          have hcard : ((sys.planets.map Planet.name).toFinset \
              (u :: st.visited).toFinset).card
              = ((sys.planets.map Planet.name).toFinset \ st.visited.toFinset).card - 1 := by
            rw [List.toFinset_cons, Finset.sdiff_insert, Finset.card_erase_of_mem hu_mem]
          have hcpos : 0 < ((sys.planets.map Planet.name).toFinset \
              st.visited.toFinset).card :=
            Finset.card_pos.mpr ⟨u, hu_mem⟩
          have hpql := relaxFold_pq_len sys u d sys.planets
            (⟨st.dist, st.prev, rest, u :: st.visited⟩ : DState α)
          have hvis2 := relaxFold_visited sys u d sys.planets
            (⟨st.dist, st.prev, rest, u :: st.visited⟩ : DState α)
          have hmeas : dMeasure sys (sys.planets.foldl (relaxStep sys u d)
              (⟨st.dist, st.prev, rest, u :: st.visited⟩ : DState α)) < n := by
            unfold dMeasure at hm ⊢
            rw [hvis2, hcard]
            dsimp only at hm hpql ⊢
            have hC : ((sys.planets.map Planet.name).toFinset \ st.visited.toFinset).card
                = (((sys.planets.map Planet.name).toFinset \ st.visited.toFinset).card - 1)
                  + 1 := (Nat.succ_pred_eq_of_pos hcpos).symm
            rw [hC] at hm
            rw [Nat.mul_add, Nat.mul_one] at hm
            set K := (sys.planets.length + 1) *
              (((sys.planets.map Planet.name).toFinset \ st.visited.toFinset).card - 1) with hK
            omega
          obtain ⟨stf, hrec, hp, hd⟩ := ih (sys.planets.foldl (relaxStep sys u d)
              (⟨st.dist, st.prev, rest, u :: st.visited⟩ : DState α))
            hnames2 hpaths2 (hsame.2.trans hpreve) (hsame.1.trans hdiste) hmeas
          exact ⟨stf, hrec, hp, hd⟩

/-- C4: [corrected] whenever the predecessor walk's condition arises — the
target `e` is unreachable from the start `s`, i.e. no dict-costed node sequence
leads from `s` to `e`, so the walk from `e` hits a `None` predecessor without
reaching `s` — the implementation does NOT signal a distinct "no path" outcome:
for every System and member names `s ≠ e` it terminates normally and returns
the partial path `[e]`, which is not anchored at `s`, with reported total
distance infinity. -/
theorem c4_amended_unreachable_partial_path {α : Type} [LinearOrderedAddCommMonoid α]
    (sys : StarSystem α) (s e : String)
    (hs : s ∈ sys.planets.map Planet.name)
    (he : e ∈ sys.planets.map Planet.name)
    (hne : s ≠ e)
    (hnp : ¬ ∃ (q : List String) (c : α), q.head? = some s ∧ q.getLast? = some e ∧
      pathCost sys q = some c)
    (fuel : ℕ)
    (hfuel : (sys.planets.length + 1) * (sys.planets.length + 1) < fuel) :
    find_shortest_path sys s e fuel = some (.ok ([e], (⊤ : WithTop α))) := by
  have hmb : dMeasure sys
      (⟨Function.update (fun _ => (⊤ : WithTop α)) s 0,
        fun x => if x ∈ sys.planets.map Planet.name then some none else none,
        [((0 : α), s)], []⟩ : DState α) < fuel := by
    unfold dMeasure
    dsimp only
    rw [List.toFinset_nil, Finset.sdiff_empty, List.length_singleton]
    have hcard : (sys.planets.map Planet.name).toFinset.card ≤ sys.planets.length := by
      have h1 := (sys.planets.map Planet.name).toFinset_card_le
      rw [List.length_map] at h1
      exact h1
    have hle : (sys.planets.length + 1) * (sys.planets.map Planet.name).toFinset.card ≤
        (sys.planets.length + 1) * sys.planets.length :=
      Nat.mul_le_mul_left _ hcard
    have hmul : (sys.planets.length + 1) * (sys.planets.length + 1) =
        (sys.planets.length + 1) * sys.planets.length + (sys.planets.length + 1) := by ring
    omega
  obtain ⟨stf, hloop, hpreve, hdiste⟩ := loop_unreach hnp fuel
    (⟨Function.update (fun _ => (⊤ : WithTop α)) s 0,
      fun x => if x ∈ sys.planets.map Planet.name then some none else none,
      [((0 : α), s)], []⟩ : DState α)
    (by
      intro x hx
      rcases List.mem_singleton.mp hx with rfl
      exact hs)
    (by
      intro x hx
      rcases List.mem_singleton.mp hx with rfl
      exact ⟨[s], 0, rfl, List.getLast?_singleton s, rfl⟩)
    (by
      dsimp only
      rw [if_pos he])
    (by
      dsimp only
      rw [Function.update_noteq (Ne.symm hne)])
    hmb
  rw [find_shortest_path, hloop]
  dsimp only
  rw [walk, hpreve]
  dsimp only
  rw [walk]
  dsimp only
  rw [hdiste]
  rfl

theorem c4_amended_witness :
    find_shortest_path (⟨"S", [⟨"A", ((0 : ℕ), 0)⟩, ⟨"B", (0, 0)⟩, ⟨"C", (0, 0)⟩],
        [(("A", "B"), 5), (("B", "A"), 5)]⟩ : StarSystem ℕ) "A" "C" 17 =
      some (.ok (["C"], (⊤ : WithTop ℕ))) ∧
    (["C"] : List String).head? ≠ some "A" := by
  have hcl : ∀ (q : List String) (c : ℕ),
      pathCost (⟨"S", [⟨"A", (0, 0)⟩, ⟨"B", (0, 0)⟩, ⟨"C", (0, 0)⟩],
        [(("A", "B"), 5), (("B", "A"), 5)]⟩ : StarSystem ℕ) q = some c →
      ∀ a, q.head? = some a → (a = "A" ∨ a = "B") →
      ∀ v, q.getLast? = some v → v = "A" ∨ v = "B" := by
    intro q
    induction q with
    | nil =>
      intro c hc
      simp [pathCost] at hc
    | cons x t ih =>
      intro c hc a hh ha v hl
      cases t with
      | nil =>
        rw [List.getLast?_singleton] at hl
        injection hh with hh
        injection hl with hl
        rw [← hl, hh]
        exact ha
      | cons y t' =>
        obtain ⟨w, c', hxy, hrest, -⟩ := (pathCost_cons_cons _ x y t' c).mp hc
        have hy : y = "A" ∨ y = "B" := by
          simp only [dictGet] at hxy
          split at hxy
          · rename_i heq
            injection heq with h1 h2
            exact Or.inr h2.symm
          · split at hxy
            · rename_i heq
              injection heq with h1 h2
              exact Or.inl h2.symm
            · exact absurd hxy (by simp)
        rw [List.getLast?_cons_cons] at hl
        exact ih c' hrest y rfl hy v hl
  have hnp : ¬ ∃ (q : List String) (c : ℕ), q.head? = some "A" ∧ q.getLast? = some "C" ∧
      pathCost (⟨"S", [⟨"A", (0, 0)⟩, ⟨"B", (0, 0)⟩, ⟨"C", (0, 0)⟩],
        [(("A", "B"), 5), (("B", "A"), 5)]⟩ : StarSystem ℕ) q = some c := by
    rintro ⟨q, c, hh, hl, hc⟩
    rcases hcl q c hc "A" hh (Or.inl rfl) "C" hl with h | h
    · exact absurd h (by decide)
    · exact absurd h (by decide)
  exact ⟨c4_amended_unreachable_partial_path _ "A" "C" (by decide) (by decide) (by decide)
    hnp 17 (by decide), by decide⟩

/-- C3: [corrected] `find_shortest_path` performs no membership validation of
the endpoints and never signals a precondition error before running the
algorithm.  (1) For every System, an absent `endName` is only detected after
the whole Dijkstra loop has run, when the reconstruction's first dict lookup
`previous[end]` raises `KeyError`: whenever such a call returns a result at
all, that result is the `KeyError`.  (2) An absent `startName` triggers no
validation either: on any System whose distance keys are drawn from its planet
names (as in every generated System), the call completes normally — no error —
returning the partial path `[endName]` with reported distance infinity. -/
theorem c3_amended_no_validation {α : Type} [LinearOrderedAddCommMonoid α] :
    (∀ (sys : StarSystem α) (startP endP : String) (fuel : ℕ)
       (r : Except PyErr (List String × WithTop α)),
       endP ∉ sys.planets.map Planet.name →
       find_shortest_path sys startP endP fuel = some r → r = .error .keyError) ∧
    (∀ (sys : StarSystem α) (startP endP : String) (fuel : ℕ),
       startP ∉ sys.planets.map Planet.name →
       endP ∈ sys.planets.map Planet.name →
       (∀ a b w, dictGet sys.distances (a, b) = some w → a ∈ sys.planets.map Planet.name) →
       2 ≤ fuel →
       find_shortest_path sys startP endP fuel = some (.ok ([endP], (⊤ : WithTop α)))) := by
  constructor
  · exact fun sys startP endP fuel r hend h => missing_end_keyerror sys startP endP hend fuel r h
  · intro sys startP endP fuel hs he hkeys hfuel
    have hne : startP ≠ endP := fun hc => hs (hc ▸ he)
    have hnoedge : ∀ b, dictGet sys.distances (startP, b) = none := by
      intro b
      cases hg : dictGet sys.distances (startP, b) with
      | none => rfl
      | some w => exact absurd (hkeys startP b w hg) hs
    exact no_outgoing_edges_partial_path sys startP endP he hne hnoedge fuel hfuel

theorem c3_amended_witness :
    ((Except.error .keyError : Except PyErr (List String × WithTop ℕ)) = .error .keyError) ∧
    find_shortest_path (⟨"S", [⟨"A", ((0 : ℕ), 0)⟩, ⟨"B", (0, 0)⟩],
        [(("A", "B"), 5), (("B", "A"), 5)]⟩ : StarSystem ℕ) "C" "B" 2 =
      some (.ok (["B"], (⊤ : WithTop ℕ))) := by
  have hfind : find_shortest_path (⟨"S", [⟨"A", (0, 0)⟩, ⟨"B", (0, 0)⟩],
      [(("A", "B"), 5), (("B", "A"), 5)]⟩ : StarSystem ℕ) "A" "X" 10 =
      some (.error .keyError) := by decide
  have hk : ∀ (a b : String) (w : ℕ),
      dictGet ([(("A", "B"), 5), (("B", "A"), 5)] : List ((String × String) × ℕ)) (a, b) =
        some w →
      a ∈ ([⟨"A", ((0 : ℕ), 0)⟩, ⟨"B", (0, 0)⟩] : List (Planet ℕ)).map Planet.name := by
    intro a b w h
    simp only [dictGet] at h
    split at h
    · rename_i heq
      injection heq with h1 h2
      rw [← h1]
      decide
    · split at h
      · rename_i heq
        injection heq with h1 h2
        rw [← h1]
        decide
      · exact absurd h (by simp)
  exact ⟨c3_amended_no_validation.1 _ "A" "X" 10 _ (by decide) hfind,
    c3_amended_no_validation.2 _ "C" "B" 2 (by decide) (by decide) hk (by decide)⟩
